import Mathlib

/-!
Verification development for the azox-mc player-data tools.

The Python sources under `tools/` are shallowly embedded below:

* the NBT binary codec of `tools/nbtworks/nbt_lib.py` (`NBTReader` / `NBTWriter`),
  over plain byte lists; Python byte strings become `List Nat`, Python's dynamic
  values (`None`, `bool`, `int`, `float`, `str`, `list`, `dict`) become `PyVal`;
* the save / backup / rotating-undo pipeline of
  `tools/bad/mcplayer/nbtcore.py` and `tools/nbtworks/nbt_lib.py`,
  over an explicit filesystem record;
* the usercache loading of `nbt_lib.py` and `nbtcore.py`;
* the inventory helpers (`find_next_free_slot`, slot replacement);
* the `/give`-command item-spec parser of `nbt_lib.py`.

Machine integers are modelled as `Int` with the exact ranges `struct.pack` /
`struct.unpack` enforce; fallible Python code (exceptions) returns `Option` or
an error constructor.  The gzip envelope is not modelled: all byte-level
statements are about the decompressed NBT streams, which is the comparison the
specification itself prescribes.
-/

/-! ### Byte-level utilities -/

/-- Resolve a Python slice index against a buffer of length `n`
(negative indices count from the end, then clamp into `[0, n]`). -/
def clampIdx (n : Nat) (i : Int) : Nat :=
  if i < 0 then (if n + i < 0 then 0 else (n + i).toNat) else min i.toNat n

/-- Python `data[i:j]` on a byte string. -/
def pySlice (data : List Nat) (i j : Int) : List Nat :=
  let a := clampIdx data.length i
  let b := clampIdx data.length j
  (data.take b).drop a

/-- Big-endian bytes to an unsigned natural. -/
def bytesToNat (bs : List Nat) : Nat :=
  bs.foldl (fun acc b => acc * 256 + b) 0

/-- Reinterpret an unsigned `w`-bit value as two's-complement signed. -/
def toSigned (w : Nat) (n : Nat) : Int :=
  if n < 2 ^ (w - 1) then (n : Int) else (n : Int) - 2 ^ w

/-- `k` big-endian bytes of an unsigned natural (low `8k` bits). -/
def natToBytesBE : Nat → Nat → List Nat
  | 0, _ => []
  | k + 1, m => natToBytesBE k (m / 256) ++ [m % 256]

/-- `k` big-endian bytes of a two's-complement integer. -/
def intToBytesBE (k : Nat) (v : Int) : List Nat :=
  natToBytesBE k ((v % (2 ^ (8 * k) : Nat)).toNat)

/-! ### UTF-8 (Python's strict `decode('utf-8')` / `encode('utf-8')`)

Python strings are modelled as lists of Unicode code points (`List Nat`). -/

def isCont (b : Nat) : Bool := 0x80 ≤ b ∧ b ≤ 0xBF

/-- Strict UTF-8 decoding: rejects truncation, overlong forms, surrogates and
code points beyond U+10FFFF, exactly as CPython's strict `decode` does. -/
def utf8Decode : List Nat → Option (List Nat)
  | [] => some []
  | b :: rest =>
    if b < 0x80 then (utf8Decode rest).map (b :: ·)
    else if 0xC2 ≤ b ∧ b ≤ 0xDF then
      match rest with
      | c1 :: r =>
        if isCont c1 then (utf8Decode r).map (((b - 0xC0) * 64 + (c1 - 0x80)) :: ·)
        else none
      | [] => none
    else if 0xE0 ≤ b ∧ b ≤ 0xEF then
      match rest with
      | c1 :: c2 :: r =>
        let lo1 : Nat := if b = 0xE0 then 0xA0 else 0x80
        let hi1 : Nat := if b = 0xED then 0x9F else 0xBF
        if lo1 ≤ c1 ∧ c1 ≤ hi1 ∧ isCont c2 then
          (utf8Decode r).map (((b - 0xE0) * 4096 + (c1 - 0x80) * 64 + (c2 - 0x80)) :: ·)
        else none
      | _ => none
    else if 0xF0 ≤ b ∧ b ≤ 0xF4 then
      match rest with
      | c1 :: c2 :: c3 :: r =>
        let lo1 : Nat := if b = 0xF0 then 0x90 else 0x80
        let hi1 : Nat := if b = 0xF4 then 0x8F else 0xBF
        if lo1 ≤ c1 ∧ c1 ≤ hi1 ∧ isCont c2 ∧ isCont c3 then
          (utf8Decode r).map
            (((b - 0xF0) * 262144 + (c1 - 0x80) * 4096 + (c2 - 0x80) * 64 + (c3 - 0x80)) :: ·)
        else none
      | _ => none
    else none

/-- Strict UTF-8 encoding: rejects surrogate code points as CPython does. -/
def utf8Encode : List Nat → Option (List Nat)
  | [] => some []
  | c :: rest =>
    if c < 0x80 then (utf8Encode rest).map ([c] ++ ·)
    else if c < 0x800 then
      (utf8Encode rest).map ([0xC0 + c / 64, 0x80 + c % 64] ++ ·)
    else if 0xD800 ≤ c ∧ c ≤ 0xDFFF then none
    else if c < 0x10000 then
      (utf8Encode rest).map ([0xE0 + c / 4096, 0x80 + (c / 64) % 64, 0x80 + c % 64] ++ ·)
    else if c ≤ 0x10FFFF then
      (utf8Encode rest).map
        ([0xF0 + c / 262144, 0x80 + (c / 4096) % 64, 0x80 + (c / 64) % 64, 0x80 + c % 64] ++ ·)
    else none

/-- Exact widening of an IEEE-754 binary32 bit pattern to binary64 bits,
as performed by `struct.unpack('>f', …)` producing a Python float
(Python floats are doubles; the float32→float64 conversion is exact). -/
def f32BitsToF64Bits (b0 : Nat) : Nat :=
  let b := b0 % 2 ^ 32
  let s := b / 2 ^ 31
  let e := (b / 2 ^ 23) % 256
  let m := b % 2 ^ 23
  if e = 0 ∧ m = 0 then s * 2 ^ 63
  else if e = 255 then s * 2 ^ 63 + 2047 * 2 ^ 52 + m * 2 ^ 29
  else if e = 0 then
    let t := Nat.log2 m
    s * 2 ^ 63 + (874 + t) * 2 ^ 52 + (m - 2 ^ t) * 2 ^ (52 - t)
  else s * 2 ^ 63 + (e + 896) * 2 ^ 52 + m * 2 ^ 29

/-! ### The dynamic value model

`nbt_lib.py` has no tag classes: the decoder returns plain Python values
(`None` for `TAG_End` and for unknown tag ids, `int` for every integer width,
`float` for both float widths, `str`, `list`, `dict`). -/

/-- A Python runtime value as produced/consumed by `NBTReader`/`NBTWriter`.
Floats carry their IEEE-754 binary64 bit pattern. -/
inductive PyVal : Type where
  | none : PyVal
  | bool (b : Bool) : PyVal
  | int (v : Int) : PyVal
  | float (bits64 : Nat) : PyVal
  | str (codepoints : List Nat) : PyVal
  | list (xs : List PyVal) : PyVal
  | dict (entries : List (List Nat × PyVal)) : PyVal

/-- Python `d[k] = v` on an insertion-ordered dict represented as an
association list: overwrite in place if the key exists, else append. -/
def dictInsert {κ β : Type} [DecidableEq κ] : List (κ × β) → κ → β → List (κ × β)
  | [], k, v => [(k, v)]
  | (k0, v0) :: rest, k, v =>
    if k0 = k then (k0, v) :: rest else (k0, v0) :: dictInsert rest k v

/-! ### NBTReader

The reader keeps a byte buffer and a position.  The position is an `Int`:
`read_string` adds a *signed* length to `self.pos`, so the position can move
backwards (and Python slicing then resolves negative indices from the end) —
because of this the source decoder can loop forever on adversarial input, so
the embedding carries explicit fuel; `RRes.diverge` marks fuel exhaustion and
is distinct from a decode error (`RRes.fail`, a raised exception). -/

structure Reader where
  data : List Nat
  pos : Int
deriving Repr

/-- Result of a fallible, possibly diverging read. -/
inductive RRes (α : Type) : Type where
  | ok (a : α) (r : Reader)
  | fail
  | diverge

/-- Read exactly `k` bytes (`struct.unpack` raises unless the slice has
exactly the required size). -/
def readN (r : Reader) (k : Nat) : Option (List Nat × Reader) :=
  let seg := pySlice r.data r.pos (r.pos + k)
  if seg.length = k then some (seg, ⟨r.data, r.pos + k⟩) else none

def read_ubyte (r : Reader) : Option (Nat × Reader) :=
  (readN r 1).map (fun p => (bytesToNat p.1, p.2))

def read_byte (r : Reader) : Option (Int × Reader) :=
  (readN r 1).map (fun p => (toSigned 8 (bytesToNat p.1), p.2))

def read_short (r : Reader) : Option (Int × Reader) :=
  (readN r 2).map (fun p => (toSigned 16 (bytesToNat p.1), p.2))

def read_int (r : Reader) : Option (Int × Reader) :=
  (readN r 4).map (fun p => (toSigned 32 (bytesToNat p.1), p.2))

def read_long (r : Reader) : Option (Int × Reader) :=
  (readN r 8).map (fun p => (toSigned 64 (bytesToNat p.1), p.2))

def read_float (r : Reader) : Option (Nat × Reader) :=
  (readN r 4).map (fun p => (f32BitsToF64Bits (bytesToNat p.1), p.2))

def read_double (r : Reader) : Option (Nat × Reader) :=
  (readN r 8).map (fun p => (bytesToNat p.1, p.2))

/-- `read_string`: a signed 16-bit length, then that many bytes decoded as
UTF-8.  Mirrors the source exactly: the byte slice is *not* length-checked
(it silently truncates at the end of the buffer), and the position advances
by the signed length. -/
def read_string (r : Reader) : Option (List Nat × Reader) :=
  match read_short r with
  | Option.none => Option.none
  | some (l, r1) =>
    let seg := pySlice r1.data r1.pos (r1.pos + l)
    (utf8Decode seg).map (fun s => (s, ⟨r1.data, r1.pos + l⟩))

/-- Repeat a primitive read `n` times (the array-tag element loops). -/
def readRepeat {α : Type} (f : Reader → Option (α × Reader)) :
    Nat → Reader → Option (List α × Reader)
  | 0, r => some ([], r)
  | n + 1, r =>
    match f r with
    | Option.none => Option.none
    | some (v, r1) =>
      match readRepeat f n r1 with
      | Option.none => Option.none
      | some (vs, r2) => some (v :: vs, r2)

mutual

/-- `NBTReader.read_tag`.  Unknown tag ids (outside 0..12) fall off the end of
the `elif` chain in the source and yield Python `None` without consuming
input; that is `RRes.ok PyVal.none r` here. -/
def readTagF : Nat → Nat → Reader → RRes PyVal
  | 0, _, _ => .diverge
  | _ + 1, 0, r => .ok .none r
  | _ + 1, 1, r =>
    match read_byte r with
    | some (v, r1) => .ok (.int v) r1
    | Option.none => .fail
  | _ + 1, 2, r =>
    match read_short r with
    | some (v, r1) => .ok (.int v) r1
    | Option.none => .fail
  | _ + 1, 3, r =>
    match read_int r with
    | some (v, r1) => .ok (.int v) r1
    | Option.none => .fail
  | _ + 1, 4, r =>
    match read_long r with
    | some (v, r1) => .ok (.int v) r1
    | Option.none => .fail
  | _ + 1, 5, r =>
    match read_float r with
    | some (v, r1) => .ok (.float v) r1
    | Option.none => .fail
  | _ + 1, 6, r =>
    match read_double r with
    | some (v, r1) => .ok (.float v) r1
    | Option.none => .fail
  | _ + 1, 7, r =>
    match read_int r with
    | some (l, r1) =>
      match readRepeat read_byte l.toNat r1 with
      | some (vs, r2) => .ok (.list (vs.map .int)) r2
      | Option.none => .fail
    | Option.none => .fail
  | _ + 1, 8, r =>
    match read_string r with
    | some (s, r1) => .ok (.str s) r1
    | Option.none => .fail
  | fuel + 1, 9, r =>
    match read_ubyte r with
    | some (lt, r1) =>
      match read_int r1 with
      | some (l, r2) => readListElemsF fuel lt l.toNat r2
      | Option.none => .fail
    | Option.none => .fail
  | fuel + 1, 10, r =>
    match readCompoundF fuel [] r with
    | .ok es r1 => .ok (.dict es) r1
    | .fail => .fail
    | .diverge => .diverge
  | _ + 1, 11, r =>
    match read_int r with
    | some (l, r1) =>
      match readRepeat read_int l.toNat r1 with
      | some (vs, r2) => .ok (.list (vs.map .int)) r2
      | Option.none => .fail
    | Option.none => .fail
  | _ + 1, 12, r =>
    match read_int r with
    | some (l, r1) =>
      match readRepeat read_long l.toNat r1 with
      | some (vs, r2) => .ok (.list (vs.map .int)) r2
      | Option.none => .fail
    | Option.none => .fail
  | _ + 1, _, r => .ok .none r

/-- The `TAG_List` payload loop: `length` payloads of the declared kind.
(A zero-length loop body never runs, so it needs no fuel.) -/
def readListElemsF : Nat → Nat → Nat → Reader → RRes PyVal
  | _, _, 0, r => .ok (.list []) r
  | 0, _, _ + 1, _ => .diverge
  | fuel + 1, lt, n + 1, r =>
    match readTagF fuel lt r with
    | .ok v r1 =>
      match readListElemsF fuel lt n r1 with
      | .ok (.list vs) r2 => .ok (.list (v :: vs)) r2
      | .ok _ _ => .fail
      | .fail => .fail
      | .diverge => .diverge
    | .fail => .fail
    | .diverge => .diverge

/-- `NBTReader.read_compound` with its accumulated (insertion-ordered) dict. -/
def readCompoundF : Nat → List (List Nat × PyVal) → Reader → RRes (List (List Nat × PyVal))
  | 0, _, _ => .diverge
  | fuel + 1, acc, r =>
    match read_ubyte r with
    | Option.none => .fail
    | some (t, r1) =>
      if t = 0 then .ok acc r1
      else
        match read_string r1 with
        | Option.none => .fail
        | some (name, r2) =>
          match readTagF fuel t r2 with
          | .ok v r3 => readCompoundF fuel (dictInsert acc name v) r3
          | .fail => .fail
          | .diverge => .diverge

end

/-- `NBTReader.read_root`: require tag id 10, skip the root name, then decode
the root compound.  (A non-compound root raises `ValueError` → `.fail`.) -/
def readRootF (fuel : Nat) (data : List Nat) : RRes (List (List Nat × PyVal)) :=
  match read_ubyte ⟨data, 0⟩ with
  | Option.none => .fail
  | some (t, r1) =>
    if t = 10 then
      match read_string r1 with
      | Option.none => .fail
      | some (_, r2) => readCompoundF fuel [] r2
    else .fail

/-! ### NBTWriter

`write_tag` picks the emitted tag id; crucially, for Python `int` it picks the
*narrowest* integer tag that fits the value, and for Python `float` it always
picks `TAG_Double`.  Unsupported values (`None` among them) raise
`ValueError` → `Option.none`. -/

def write_byte (v : Int) : Option (List Nat) :=
  if -128 ≤ v ∧ v ≤ 127 then some (intToBytesBE 1 v) else Option.none

def write_short (v : Int) : Option (List Nat) :=
  if -32768 ≤ v ∧ v ≤ 32767 then some (intToBytesBE 2 v) else Option.none

def write_int (v : Int) : Option (List Nat) :=
  if -2147483648 ≤ v ∧ v ≤ 2147483647 then some (intToBytesBE 4 v) else Option.none

def write_long (v : Int) : Option (List Nat) :=
  if -9223372036854775808 ≤ v ∧ v ≤ 9223372036854775807 then some (intToBytesBE 8 v)
  else Option.none

/-- `write_string`: UTF-8 encode, then a signed 16-bit length prefix
(`struct.pack('>h', …)` raises if the byte length exceeds 32767). -/
def write_string (s : List Nat) : Option (List Nat) :=
  match utf8Encode s with
  | Option.none => Option.none
  | some e =>
    match write_short (e.length : Int) with
    | Option.none => Option.none
    | some lb => some (lb ++ e)

/-- The tag id `write_tag` returns for a value.  For a non-empty list the id of
the first element is computed eagerly (so an unsupported first element raises
already here).  Python's `bool` is checked before `int` (it is a subclass). -/
def tagTypeOf : PyVal → Option Nat
  | .bool _ => some 1
  | .int v =>
    some (if -128 ≤ v ∧ v ≤ 127 then 1
      else if -32768 ≤ v ∧ v ≤ 32767 then 2
      else if -2147483648 ≤ v ∧ v ≤ 2147483647 then 3
      else 4)
  | .float _ => some 6
  | .str _ => some 8
  | .list [] => some 9
  | .list (v :: _) =>
    match tagTypeOf v with
    | some _ => some 9
    | Option.none => Option.none
  | .dict _ => some 10
  | .none => Option.none

mutual

/-- The bytes the closure returned by `write_tag` appends for a value. -/
def payloadV : PyVal → Option (List Nat)
  | .none => Option.none
  | .bool b => some [if b then 1 else 0]
  | .int v =>
    if -128 ≤ v ∧ v ≤ 127 then write_byte v
    else if -32768 ≤ v ∧ v ≤ 32767 then write_short v
    else if -2147483648 ≤ v ∧ v ≤ 2147483647 then write_int v
    else write_long v
  | .float bits => some (natToBytesBE 8 bits)
  | .str s => write_string s
  | .list [] => some ([0] ++ [0, 0, 0, 0])
  | .list (v :: vs) =>
    match tagTypeOf v with
    | Option.none => Option.none
    | some t0 =>
      match payloadItems (v :: vs) with
      | Option.none => Option.none
      | some body =>
        match write_int ((v :: vs).length : Int) with
        | Option.none => Option.none
        | some lb => some ([t0] ++ lb ++ body)
  | .dict es =>
    match payloadEntries es with
    | Option.none => Option.none
    | some body => some (body ++ [0])

/-- `write_list`'s element loop: `write_tag` is applied to every element
(its id is computed and discarded — elements of a differing kind are *not*
rejected) and each element's payload bytes follow. -/
def payloadItems : List PyVal → Option (List Nat)
  | [] => some []
  | v :: vs =>
    match tagTypeOf v with
    | Option.none => Option.none
    | some _ =>
      match payloadV v with
      | Option.none => Option.none
      | some p =>
        match payloadItems vs with
        | Option.none => Option.none
        | some rest => some (p ++ rest)

/-- `write_compound`'s entry loop: tag id byte, name, payload for each entry. -/
def payloadEntries : List (List Nat × PyVal) → Option (List Nat)
  | [] => some []
  | (name, v) :: rest =>
    match tagTypeOf v with
    | Option.none => Option.none
    | some t =>
      match write_string name with
      | Option.none => Option.none
      | some nm =>
        match payloadV v with
        | Option.none => Option.none
        | some p =>
          match payloadEntries rest with
          | Option.none => Option.none
          | some rb => some ([t] ++ nm ++ p ++ rb)

end

/-- `NBTWriter.write_root`: tag id 10, root name, compound entries, End. -/
def writeRoot (es : List (List Nat × PyVal)) (name : List Nat) : Option (List Nat) :=
  match write_string name with
  | Option.none => Option.none
  | some nm =>
    match payloadEntries es with
    | Option.none => Option.none
    | some body => some ([10] ++ nm ++ body ++ [0])

mutual

/-- Does a value tree contain a `None` node (or any value the writer's
`isinstance` chain does not recognise — in this model only `None`)? -/
def hasNone : PyVal → Bool
  | .none => true
  | .bool _ => false
  | .int _ => false
  | .float _ => false
  | .str _ => false
  | .list xs => hasNoneList xs
  | .dict es => hasNoneEntries es

def hasNoneList : List PyVal → Bool
  | [] => false
  | v :: vs => hasNone v || hasNoneList vs

def hasNoneEntries : List (List Nat × PyVal) → Bool
  | [] => false
  | (_, v) :: es => hasNone v || hasNoneEntries es

end

/-! ### Claim C1: byte-level round-trip fidelity of decode/encode -/

/-- A minimal valid (decompressed) player file: a root compound holding one
`TAG_Int` named `"a"` with value 1. -/
def fileIntOne : List Nat := [10, 0, 0, 3, 0, 1, 97, 0, 0, 0, 1, 0]

/-- What the writer actually emits after decoding `fileIntOne`: the value 1
fits in a byte, so `write_tag` re-emits the field as `TAG_Byte`. -/
def fileIntOneReEncoded : List Nat := [10, 0, 0, 1, 0, 1, 97, 1, 0]

/-- C1: FALSIFIED BY THE CODE.  `encode(decode(F)) == F` fails for the valid
player file `fileIntOne`: the decoder collapses every integer tag to a plain
Python `int`, and `NBTWriter.write_tag` then chooses the tag id from the
value's magnitude, so a `TAG_Int` holding 1 is re-encoded as `TAG_Byte` and the
decompressed streams differ. -/
theorem intWidth_roundTrip_divergence :
    readRootF 32 fileIntOne = RRes.ok [([97], PyVal.int 1)] ⟨fileIntOne, 12⟩ ∧
    writeRoot [([97], PyVal.int 1)] [] = some fileIntOneReEncoded ∧
    fileIntOneReEncoded ≠ fileIntOne := by
  refine ⟨by rfl, by rfl, by decide⟩

/-! ### Claim C5: negative List/array lengths -/

/-- A (decompressed) file whose root compound holds a `TAG_List` named `"L"`
with element kind `TAG_Byte` and the *negative* signed length −1
(bytes `FF FF FF FF`). -/
def fileNegLen : List Nat := [10, 0, 0, 9, 0, 1, 76, 1, 255, 255, 255, 255, 0]

/-- C5 counterexample: the claim says a negative length is a format error
(`NegativeLength`), but decoding `fileNegLen` *succeeds*, returning the list
field as an empty Python list (the whole 13-byte buffer is consumed). -/
theorem negLength_decode_succeeds_cex :
    readRootF 32 fileNegLen = RRes.ok [([76], PyVal.list [])] ⟨fileNegLen, 13⟩ := by
  rfl

/-- C5 amended: for every `TAG_List`, `TAG_Byte_Array`, `TAG_Int_Array` or
`TAG_Long_Array` whose signed `Int` length decodes negative, `read_tag`
*succeeds* and returns an empty Python list — the negative count is fed to
`range(…)`, which is empty — rather than failing with a format error. -/
theorem negLength_treated_as_empty (fuel : Nat) (r r1 r2 : Reader) (lt : Nat) (l : Int)
    (hneg : l < 0) :
    (read_ubyte r = some (lt, r1) → read_int r1 = some (l, r2) →
      readTagF (fuel + 1) 9 r = RRes.ok (PyVal.list []) r2) ∧
    (read_int r = some (l, r1) →
      readTagF (fuel + 1) 7 r = RRes.ok (PyVal.list []) r1) ∧
    (read_int r = some (l, r1) →
      readTagF (fuel + 1) 11 r = RRes.ok (PyVal.list []) r1) ∧
    (read_int r = some (l, r1) →
      readTagF (fuel + 1) 12 r = RRes.ok (PyVal.list []) r1) := by
  have htn : l.toNat = 0 := Int.toNat_of_nonpos (le_of_lt hneg)
  refine ⟨fun h1 h2 => ?_, fun h1 => ?_, fun h1 => ?_, fun h1 => ?_⟩
  · simp only [readTagF, h1, h2, htn]
    simp only [readListElemsF]
  · simp only [readTagF, h1, htn]
    simp only [readRepeat, List.map_nil]
  · simp only [readTagF, h1, htn]
    simp only [readRepeat, List.map_nil]
  · simp only [readTagF, h1, htn]
    simp only [readRepeat, List.map_nil]

/-- Closed instance of `negLength_treated_as_empty` at a concrete reader:
the `TAG_List` payload `01 FF FF FF FF` (kind Byte, length −1). -/
theorem negLength_treated_as_empty_witness :
    readTagF 5 9 ⟨[1, 255, 255, 255, 255], 0⟩ =
      RRes.ok (PyVal.list []) ⟨[1, 255, 255, 255, 255], 5⟩ :=
  (negLength_treated_as_empty 4 ⟨[1, 255, 255, 255, 255], 0⟩
    ⟨[1, 255, 255, 255, 255], 1⟩ ⟨[1, 255, 255, 255, 255], 5⟩ 1 (-1)
    (by decide)).1 (by rfl) (by rfl)

/-! ### Claim C10: the writer is partial — `None` nodes cannot be encoded -/

mutual

/-- If a value tree contains a `None` node, `write_tag` either fails while
choosing the tag id or while producing the payload. -/
theorem hasNone_kills : ∀ v : PyVal, hasNone v = true →
    tagTypeOf v = Option.none ∨ payloadV v = Option.none
  | .none, _ => Or.inl rfl
  | .bool _, h => absurd h (by simp [hasNone])
  | .int _, h => absurd h (by simp [hasNone])
  | .float _, h => absurd h (by simp [hasNone])
  | .str _, h => absurd h (by simp [hasNone])
  | .list [], h => absurd h (by simp [hasNone, hasNoneList])
  | .list (v :: vs), h => by
    have hI := hasNoneList_kills (v :: vs) (by simpa [hasNone] using h)
    refine Or.inr ?_
    cases h1 : tagTypeOf v with
    | none => simp [payloadV, h1]
    | some t => simp [payloadV, h1, hI]
  | .dict es, h => by
    have hI := hasNoneEntries_kills es (by simpa [hasNone] using h)
    exact Or.inr (by simp [payloadV, hI])

/-- A list with a `None` somewhere has no `write_list` payload. -/
theorem hasNoneList_kills : ∀ xs : List PyVal, hasNoneList xs = true →
    payloadItems xs = Option.none
  | [], h => absurd h (by simp [hasNoneList])
  | v :: vs, h => by
    rw [hasNoneList, Bool.or_eq_true] at h
    rcases h with hv | hvs
    · rcases hasNone_kills v hv with h1 | h1
      · simp [payloadItems, h1]
      · cases h2 : tagTypeOf v with
        | none => simp [payloadItems, h2]
        | some t => simp [payloadItems, h2, h1]
    · have hI := hasNoneList_kills vs hvs
      cases h2 : tagTypeOf v with
      | none => simp [payloadItems, h2]
      | some t =>
        cases h3 : payloadV v with
        | none => simp [payloadItems, h2, h3]
        | some p => simp [payloadItems, h2, h3, hI]

/-- A compound with a `None` somewhere has no `write_compound` payload. -/
theorem hasNoneEntries_kills : ∀ es : List (List Nat × PyVal), hasNoneEntries es = true →
    payloadEntries es = Option.none
  | [], h => absurd h (by simp [hasNoneEntries])
  | (name, v) :: es, h => by
    rw [hasNoneEntries, Bool.or_eq_true] at h
    rcases h with hv | hes
    · rcases hasNone_kills v hv with h1 | h1
      · simp [payloadEntries, h1]
      · cases h2 : tagTypeOf v with
        | none => simp [payloadEntries, h2]
        | some t =>
          cases h3 : write_string name with
          | none => simp [payloadEntries, h2, h3]
          | some nm => simp [payloadEntries, h2, h3, h1]
    · have hI := hasNoneEntries_kills es hes
      cases h2 : tagTypeOf v with
      | none => simp [payloadEntries, h2]
      | some t =>
        cases h3 : write_string name with
        | none => simp [payloadEntries, h2, h3]
        | some nm =>
          cases h4 : payloadV v with
          | none => simp [payloadEntries, h2, h3, h4]
          | some p => simp [payloadEntries, h2, h3, h4, hI]

end

/-- C10: the encoder is partial over in-memory trees.  (1) Any root compound
containing a node the `isinstance` chain does not recognise — the `None` value
in particular — makes `write_root` raise `ValueError` instead of emitting
bytes.  (2) The decoder maps every tag id outside 0..12 to exactly such a
`None` (without consuming input), so a decoded file containing an unrecognized
tag kind cannot be saved back. -/
theorem unsupported_value_cannot_encode :
    (∀ (es : List (List Nat × PyVal)) (name : List Nat),
      hasNone (PyVal.dict es) = true → writeRoot es name = Option.none) ∧
    (∀ (fuel : Nat) (r : Reader) (k : Nat), 13 ≤ k →
      readTagF (fuel + 1) k r = RRes.ok PyVal.none r) := by
  constructor
  · intro es name h
    have hI := hasNoneEntries_kills es (by simpa [hasNone] using h)
    cases h1 : write_string name with
    | none => simp [writeRoot, h1]
    | some nm => simp [writeRoot, h1, hI]
  · intro fuel r k hk
    obtain ⟨m, rfl⟩ : ∃ m, k = m + 13 := ⟨k - 13, by omega⟩
    rfl

/-- A (decompressed) file whose root compound holds one entry of the unknown
tag kind 13 named `"x"`. -/
def fileUnknownKind : List Nat := [10, 0, 0, 13, 0, 1, 120, 0]

/-- Closed instance of `unsupported_value_cannot_encode`: `fileUnknownKind`
decodes successfully to a compound holding Python `None`, and saving that tree
back fails. -/
theorem unsupported_value_cannot_encode_witness :
    readRootF 32 fileUnknownKind = RRes.ok [([120], PyVal.none)] ⟨fileUnknownKind, 8⟩ ∧
    writeRoot [([120], PyVal.none)] [] = Option.none :=
  ⟨by rfl, unsupported_value_cannot_encode.1 [([120], PyVal.none)] [] (by rfl)⟩

/-! ### The save / backup / rotating-undo pipeline

`tools/bad/mcplayer/nbtcore.py`.  The filesystem state relevant to one player
path is the current file, its `.bak`, and the `.undoN` chain (indexed from 1);
`α` is the file-content type.  `shutil.move` onto an existing file replaces
it; `shutil.copy2` raises `FileNotFoundError` when the source is missing. -/

structure FS (α : Type) where
  cur : Option α
  bak : Option α
  undo : Nat → Option α

/-- `UNDO_LIMIT` of `nbtcore.py`. -/
def UNDO_LIMIT : Nat := 8

/-- One iteration of the rotation loop at index `i`:
`if os.path.exists(path.undo(i-1)): shutil.move(path.undo(i-1), path.undo(i))`. -/
def moveUndo {α : Type} (fs : FS α) (i : Nat) : FS α :=
  match fs.undo (i - 1) with
  | some c =>
    { fs with undo := fun j => if j = i then some c else if j = i - 1 then none else fs.undo j }
  | Option.none => fs

/-- The `for i in range(limit, 1, -1)` loop of `push_undo`, counting down
from `n`: indices `n, n-1, …, 2` are processed. -/
def pushUndoLoop {α : Type} (fs : FS α) : Nat → FS α
  | 0 => fs
  | 1 => fs
  | n + 2 => pushUndoLoop (moveUndo fs (n + 2)) (n + 1)

/-- `push_undo(path)`: rotate the chain, then copy the current file (if it
exists) to `.undo1`. -/
def push_undo {α : Type} (fs : FS α) : FS α :=
  match (pushUndoLoop fs UNDO_LIMIT).cur with
  | some c =>
    { pushUndoLoop fs UNDO_LIMIT with
      undo := fun j => if j = 1 then some c else (pushUndoLoop fs UNDO_LIMIT).undo j }
  | Option.none => pushUndoLoop fs UNDO_LIMIT

/-- Failures of the save pipeline that are modelled: the backup copy finding
no current file, and the encoder raising on an unsupported value. -/
inductive SaveErr : Type where
  | backupFailed
  | encodeFailed

/-- `save_nbt(nbt_file, path)`: `push_undo`, then `backup_file` (which raises
if `path` does not exist — the state at that point, undo files already
rotated, is returned alongside the error), then write the new content. -/
def save_nbt {α : Type} (fs : FS α) (new : α) : Option SaveErr × FS α :=
  match (push_undo fs).cur with
  | Option.none => (some .backupFailed, push_undo fs)
  | some c => (Option.none, { push_undo fs with bak := some c, cur := some new })

/-- `nbt_lib.save_player_data(nbt_data, dat_file)`: encode first (a
`ValueError` from `write_tag` propagates before anything is touched), then
copy the current file to `.bak` (raises if missing), then write the gzip of
the encoded bytes to the player file (the gzip envelope is not modelled; the
stored content is the NBT byte stream). -/
def save_player_data (es : List (List Nat × PyVal)) (fs : FS (List Nat)) :
    Option SaveErr × FS (List Nat) :=
  match writeRoot es [] with
  | Option.none => (some .encodeFailed, fs)
  | some bytes =>
    match fs.cur with
    | Option.none => (some .backupFailed, fs)
    | some c => (Option.none, { fs with bak := some c, cur := some bytes })

/-! ### Rotation lemmas -/

theorem moveUndo_cur {α : Type} (fs : FS α) (i : Nat) : (moveUndo fs i).cur = fs.cur := by
  unfold moveUndo
  cases fs.undo (i - 1) <;> rfl

theorem moveUndo_bak {α : Type} (fs : FS α) (i : Nat) : (moveUndo fs i).bak = fs.bak := by
  unfold moveUndo
  cases fs.undo (i - 1) <;> rfl

theorem moveUndo_undo_none {α : Type} (fs : FS α) (i j : Nat)
    (h : fs.undo (i - 1) = Option.none) : (moveUndo fs i).undo j = fs.undo j := by
  unfold moveUndo
  rw [h]

theorem moveUndo_undo_some {α : Type} (fs : FS α) (i j : Nat) (c : α)
    (h : fs.undo (i - 1) = some c) :
    (moveUndo fs i).undo j =
      if j = i then some c else if j = i - 1 then Option.none else fs.undo j := by
  unfold moveUndo
  rw [h]

theorem pushUndoLoop_ge2 {α : Type} (fs : FS α) (n : Nat) (hn : 2 ≤ n) :
    pushUndoLoop fs n = pushUndoLoop (moveUndo fs n) (n - 1) := by
  obtain ⟨m, rfl⟩ : ∃ m, n = m + 2 := ⟨n - 2, by omega⟩
  rfl

theorem pushUndoLoop_cur {α : Type} : ∀ (n : Nat) (fs : FS α),
    (pushUndoLoop fs n).cur = fs.cur
  | 0, _ => rfl
  | 1, _ => rfl
  | n + 2, fs => by
    show (pushUndoLoop (moveUndo fs (n + 2)) (n + 1)).cur = fs.cur
    rw [pushUndoLoop_cur (n + 1) (moveUndo fs (n + 2)), moveUndo_cur]

theorem pushUndoLoop_bak {α : Type} : ∀ (n : Nat) (fs : FS α),
    (pushUndoLoop fs n).bak = fs.bak
  | 0, _ => rfl
  | 1, _ => rfl
  | n + 2, fs => by
    show (pushUndoLoop (moveUndo fs (n + 2)) (n + 1)).bak = fs.bak
    rw [pushUndoLoop_bak (n + 1) (moveUndo fs (n + 2)), moveUndo_bak]

/-- Pointwise effect of the whole rotation loop counting down from `n ≥ 2`:
slot 1 is always vacated, every slot `2 ≤ j < n` receives the previous
occupant of slot `j-1`, slot `n` receives slot `n-1`'s occupant if any (its
own previous occupant being dropped only in that case), and slots beyond `n`
are untouched. -/
theorem pushUndoLoop_spec {α : Type} (n : Nat) (hn : 2 ≤ n) (fs : FS α) :
    ((pushUndoLoop fs n).undo 0 = fs.undo 0) ∧
    ((pushUndoLoop fs n).undo 1 = Option.none) ∧
    (∀ j, 2 ≤ j → j < n → (pushUndoLoop fs n).undo j = fs.undo (j - 1)) ∧
    ((pushUndoLoop fs n).undo n =
      (match fs.undo (n - 1) with | some c => some c | Option.none => fs.undo n)) ∧
    (∀ j, n < j → (pushUndoLoop fs n).undo j = fs.undo j) := by
  induction n, hn using Nat.le_induction generalizing fs with
  | base =>
    have e : pushUndoLoop fs 2 = moveUndo fs 2 := rfl
    rw [e]
    cases h : fs.undo 1 with
    | none =>
      refine ⟨moveUndo_undo_none fs 2 0 h, ?_, ?_, ?_, ?_⟩
      · rw [moveUndo_undo_none fs 2 1 h, h]
      · intro j h2 hlt
        omega
      · rw [moveUndo_undo_none fs 2 2 h]
      · intro j hj
        exact moveUndo_undo_none fs 2 j h
    | some c =>
      refine ⟨?_, ?_, ?_, ?_, ?_⟩
      · rw [moveUndo_undo_some fs 2 0 c h]
        simp
      · rw [moveUndo_undo_some fs 2 1 c h]
        simp
      · intro j h2 hlt
        omega
      · rw [moveUndo_undo_some fs 2 2 c h]
        simp
      · intro j hj
        rw [moveUndo_undo_some fs 2 j c h, if_neg (by omega), if_neg (by omega)]
  | succ n hn IH =>
    have e := pushUndoLoop_ge2 fs (n + 1) (by omega)
    have e1 : n + 1 - 1 = n := by omega
    rw [e1] at e
    rw [e]
    obtain ⟨ih0, ih1, ihMid, ihTop, ihAbove⟩ := IH (moveUndo fs (n + 1))
    have hu : ∀ k, k ≠ n + 1 → k ≠ n → (moveUndo fs (n + 1)).undo k = fs.undo k := by
      intro k hk1 hk2
      cases h : fs.undo n with
      | none => exact moveUndo_undo_none fs (n + 1) k h
      | some c =>
        rw [moveUndo_undo_some fs (n + 1) k c h, if_neg (by omega), if_neg (by omega)]
    have huN : (moveUndo fs (n + 1)).undo n = Option.none := by
      cases h : fs.undo n with
      | none => rw [moveUndo_undo_none fs (n + 1) n h, h]
      | some c =>
        rw [moveUndo_undo_some fs (n + 1) n c h, if_neg (by omega),
          if_pos (show n = n + 1 - 1 by omega)]
    have huTop : (moveUndo fs (n + 1)).undo (n + 1) =
        (match fs.undo n with | some c => some c | Option.none => fs.undo (n + 1)) := by
      cases h : fs.undo n with
      | none => rw [moveUndo_undo_none fs (n + 1) (n + 1) h]
      | some c => rw [moveUndo_undo_some fs (n + 1) (n + 1) c h, if_pos rfl]
    refine ⟨?_, ih1, ?_, ?_, ?_⟩
    · rw [ih0, hu 0 (by omega) (by omega)]
    · intro j h2 hlt
      rcases Nat.lt_or_ge j n with hjn | hjn
      · rw [ihMid j h2 hjn, hu (j - 1) (by omega) (by omega)]
      · have hj : j = n := by omega
        subst hj
        rw [hu (j - 1) (by omega) (by omega), huN] at ihTop
        rw [ihTop]
        cases fs.undo (j - 1) <;> rfl
    · rw [ihAbove (n + 1) (by omega), huTop]
      rfl
    · intro j hj
      rw [ihAbove j (by omega), hu j (by omega) (by omega)]

theorem push_undo_cur {α : Type} (fs : FS α) : (push_undo fs).cur = fs.cur := by
  unfold push_undo
  cases hc : (pushUndoLoop fs UNDO_LIMIT).cur with
  | none =>
    show (pushUndoLoop fs UNDO_LIMIT).cur = fs.cur
    rw [pushUndoLoop_cur]
  | some c =>
    show (pushUndoLoop fs UNDO_LIMIT).cur = fs.cur
    rw [pushUndoLoop_cur]

theorem push_undo_bak {α : Type} (fs : FS α) : (push_undo fs).bak = fs.bak := by
  unfold push_undo
  cases hc : (pushUndoLoop fs UNDO_LIMIT).cur with
  | none =>
    show (pushUndoLoop fs UNDO_LIMIT).bak = fs.bak
    rw [pushUndoLoop_bak]
  | some c =>
    show (pushUndoLoop fs UNDO_LIMIT).bak = fs.bak
    rw [pushUndoLoop_bak]

/-- C2: after `save_nbt` on a state whose undo chain is `.undo1 .. .undoK`
(`K < UNDO_LIMIT`, nothing above `K`) and whose current file exists, the save
succeeds, the chain has shifted by one (`.undo(i)` holds the old `.undo(i-1)`
for `2 ≤ i ≤ K+1`), the pre-save current content sits at `.undo1`, nothing
exists above `.undo(K+1)`, and in particular no `.undoJ` with
`J > UNDO_LIMIT` exists. -/
theorem save_rotates_undo_chain {α : Type} (fs : FS α) (K : Nat) (f : Nat → α)
    (c0 new : α) (hK : K < UNDO_LIMIT) (hcur : fs.cur = some c0)
    (hchain : ∀ i, 1 ≤ i → i ≤ K → fs.undo i = some (f i))
    (habove : ∀ i, K < i → fs.undo i = Option.none) :
    (save_nbt fs new).1 = Option.none ∧
    (save_nbt fs new).2.cur = some new ∧
    (save_nbt fs new).2.undo 1 = some c0 ∧
    (∀ i, 2 ≤ i → i ≤ K + 1 → (save_nbt fs new).2.undo i = some (f (i - 1))) ∧
    (∀ i, K + 1 < i → (save_nbt fs new).2.undo i = Option.none) ∧
    (∀ i, UNDO_LIMIT < i → (save_nbt fs new).2.undo i = Option.none) := by
  obtain ⟨h0, h1, hMid, hTop, hAbove⟩ :=
    pushUndoLoop_spec (α := α) UNDO_LIMIT (by decide) fs
  have hgcur : (pushUndoLoop fs UNDO_LIMIT).cur = some c0 := by
    rw [pushUndoLoop_cur, hcur]
  have hpundo : ∀ j, (push_undo fs).undo j =
      if j = 1 then some c0 else (pushUndoLoop fs UNDO_LIMIT).undo j := by
    intro j
    unfold push_undo
    rw [hgcur]
  have hpcur : (push_undo fs).cur = some c0 := by rw [push_undo_cur, hcur]
  have hs1 : (save_nbt fs new).1 = Option.none := by
    unfold save_nbt
    rw [hpcur]
  have hscur : (save_nbt fs new).2.cur = some new := by
    unfold save_nbt
    rw [hpcur]
  have hsundo : ∀ j, (save_nbt fs new).2.undo j = (push_undo fs).undo j := by
    intro j
    unfold save_nbt
    rw [hpcur]
  refine ⟨hs1, hscur, ?_, ?_, ?_, ?_⟩
  · rw [hsundo 1, hpundo 1, if_pos rfl]
  · intro i h2 hle
    rw [hsundo i, hpundo i, if_neg (by omega)]
    rcases Nat.lt_or_ge i UNDO_LIMIT with hlt | hge
    · rw [hMid i h2 hlt]
      exact hchain (i - 1) (by omega) (by omega)
    · have hi : i = UNDO_LIMIT := by omega
      subst hi
      rw [hTop, hchain (UNDO_LIMIT - 1) (by omega) (by omega)]
  · intro i hgt
    rw [hsundo i, hpundo i, if_neg (by omega)]
    rcases Nat.lt_or_ge i UNDO_LIMIT with hlt | hge
    · rcases Nat.lt_or_ge i 2 with hlt2 | hge2
      · have hi : i = 1 := by omega
        omega
      · rw [hMid i hge2 hlt]
        exact habove (i - 1) (by omega)
    · rcases Nat.eq_or_lt_of_le hge with heq | hgt8
      · rw [← heq, hTop, habove (UNDO_LIMIT - 1) (by omega)]
        exact habove UNDO_LIMIT (by omega)
      · rw [hAbove i hgt8]
        exact habove i (by omega)
  · intro i hgt
    rw [hsundo i, hpundo i, if_neg (by omega), hAbove i hgt]
    exact habove i (by omega)

/-- A concrete pre-save state for the witness: current content `0`, undo chain
`.undo1 = 1`, `.undo2 = 2`, nothing above. -/
def fsUndoExample : FS Nat :=
  ⟨some 0, Option.none,
    fun i => if i = 1 then some 1 else if i = 2 then some 2 else Option.none⟩

/-- Closed instance of `save_rotates_undo_chain` on `fsUndoExample` (K = 2):
the save succeeds, `.undo1` receives the pre-save current content,
`.undo3` receives the old `.undo2`, and `.undo4` stays absent. -/
theorem save_rotates_undo_chain_witness :
    (save_nbt fsUndoExample 9).1 = Option.none ∧
    (save_nbt fsUndoExample 9).2.undo 1 = some 0 ∧
    (save_nbt fsUndoExample 9).2.undo 3 = some 2 ∧
    (save_nbt fsUndoExample 9).2.undo 4 = Option.none := by
  obtain ⟨h1, _, h3, h4, h5, _⟩ :=
    save_rotates_undo_chain fsUndoExample 2 (fun i => i) 0 9 (by decide) rfl
      (by
        intro i hi1 hi2
        interval_cases i <;> rfl)
      (by
        intro i hi
        show (if i = 1 then some 1 else if i = 2 then some 2 else Option.none) = Option.none
        rw [if_neg (by omega), if_neg (by omega)])
  exact ⟨h1, h3, h4 3 (by norm_num) (by norm_num), h5 4 (by norm_num)⟩

/-- C3: atomicity on pre-write failure.  For `nbt_lib.save_player_data`, if a
sub-step fails before new bytes are written (encoding raises, or the backup
copy fails because the current file is missing), the failure is propagated
and the whole filesystem state — in particular the player file's content — is
unchanged.  For `nbtcore.save_nbt`, a backup failure likewise propagates and
leaves the player file and its `.bak` untouched (only the undo rotation,
which precedes the backup, has run). -/
theorem failed_save_leaves_player_file_unchanged :
    (∀ (es : List (List Nat × PyVal)) (fs : FS (List Nat)),
      (save_player_data es fs).1.isSome = true → (save_player_data es fs).2 = fs) ∧
    (∀ (fs : FS Nat) (new : Nat),
      (save_nbt fs new).1.isSome = true →
        (save_nbt fs new).2.cur = fs.cur ∧ (save_nbt fs new).2.bak = fs.bak) := by
  constructor
  · intro es fs h
    unfold save_player_data at h ⊢
    cases hw : writeRoot es [] with
    | none => rfl
    | some bytes =>
      cases hc : fs.cur with
      | none => rfl
      | some c =>
        rw [hw, hc] at h
        simp at h
  · intro fs new h
    unfold save_nbt at h ⊢
    cases hc : (push_undo fs).cur with
    | none => exact ⟨push_undo_cur fs, push_undo_bak fs⟩
    | some c =>
      rw [hc] at h
      simp at h

/-- A concrete filesystem state for the C3 witness. -/
def fsSaveExample : FS (List Nat) := ⟨some [1, 2], Option.none, fun _ => Option.none⟩

/-- Closed instance of `failed_save_leaves_player_file_unchanged`: saving a
tree that contains a `None` node fails in the encode step and leaves the
state untouched. -/
theorem failed_save_witness :
    (save_player_data [([120], PyVal.none)] fsSaveExample).1.isSome = true ∧
    (save_player_data [([120], PyVal.none)] fsSaveExample).2 = fsSaveExample :=
  ⟨by rfl,
    failed_save_leaves_player_file_unchanged.1 [([120], PyVal.none)] fsSaveExample (by rfl)⟩

/-! ### Usercache loading (claim C4)

Python text strings in the repository layer are modelled as `List Char`.
The three observable states of `usercache.json` are: absent, present but not
valid JSON, present and valid (a JSON array of objects, each possibly
carrying `"uuid"` and `"name"` string fields). -/

abbrev PyStr := List Char

inductive CacheState : Type where
  | absent
  | malformed
  | valid (entries : List (Option PyStr × Option PyStr))

/-- A usercache entry of `nbt_lib.py`'s raw JSON list (uuid, name fields). -/
abbrev UCEntry := Option PyStr × Option PyStr

/-- Python `d.get(k)` on an insertion-ordered dict (association list). -/
def dictGet {κ β : Type} [DecidableEq κ] : List (κ × β) → κ → Option β
  | [], _ => Option.none
  | (k0, v) :: rest, k => if k0 = k then some v else dictGet rest k

/-- `nbt_lib.load_usercache`: `try: … json.load(f) except FileNotFoundError:
return []`.  Only a *missing* file is tolerated; a present-but-malformed file
makes `json.load` raise `JSONDecodeError`, which is **not** caught and
propagates (`Except.error`). -/
def load_usercache_lib : CacheState → Except Unit (List UCEntry)
  | .absent => .ok []
  | .malformed => .error ()
  | .valid es => .ok es

/-- `nbtcore.load_usercache`: the body is guarded by
`if os.path.exists(USERCACHE):` inside `try: … except Exception: return {}`.
A malformed file is tolerated (`json.load` raises, the handler returns `{}`),
but when the file is *missing* the function falls off its end and returns
Python `None` — not the empty dict its `-> dict` annotation promises. -/
def load_usercache_core : CacheState → Option (List (PyStr × PyStr))
  | .absent => Option.none
  | .malformed => some []
  | .valid es =>
    some (es.foldl
      (fun acc e =>
        match e.1, e.2 with
        | some u, some n => dictInsert acc u n
        | _, _ => acc) [])

/-- Lexicographic comparison of Python strings (for `sorted`). -/
def pyStrLe : PyStr → PyStr → Bool
  | [], _ => true
  | _ :: _, [] => false
  | a :: as, b :: bs => if a = b then pyStrLe as bs else decide (a.val ≤ b.val)

/-- Stable insertion of `x` into an already sorted list. -/
def insertSorted {α : Type} (le : α → α → Bool) (x : α) : List α → List α
  | [] => [x]
  | y :: ys => if le x y then x :: y :: ys else y :: insertSorted le x ys

/-- Python's stable `sorted(l)` (insertion sort). -/
def pySorted {α : Type} (le : α → α → Bool) (l : List α) : List α :=
  l.foldr (insertSorted le) []

/-- `nbtcore.list_player_files`: the `.dat` entries of the directory listing,
sorted. -/
def list_player_files (dirFiles : List PyStr) : List PyStr :=
  pySorted pyStrLe (dirFiles.filter (fun f => ".dat".data.isSuffixOf f))

/-- `nbtcore.list_players` (the `os.path.join` with the constant directory is
omitted: the third tuple component is the bare file name).  When
`load_usercache()` returned `None` (missing cache) the first `users.get(...)`
raises `AttributeError`, so enumeration fails unless there are no files. -/
def list_players_core (cs : CacheState) (dirFiles : List PyStr) :
    Except Unit (List (PyStr × PyStr × PyStr)) :=
  match load_usercache_core cs with
  | Option.none =>
    match list_player_files dirFiles with
    | [] => .ok []
    | _ :: _ => .error ()
  | some users =>
    .ok ((list_player_files dirFiles).map (fun f =>
      let uuid := f.take (f.length - 4)
      ((dictGet users uuid).getD uuid, uuid, f)))

/-- C4: FALSIFIED BY THE CODE, whose own declarations show the claim is the
intent (`nbtcore.load_usercache` is annotated `-> dict` and its
`except Exception` handler returns `{}`).  (1) `nbt_lib.load_usercache`
propagates the JSON error on a malformed cache instead of yielding an empty
map.  (2) `nbtcore.load_usercache` returns `None` (not an empty map) on a
missing cache, and (3) `nbtcore.list_players` then crashes with
`AttributeError` as soon as one `.dat` file exists.  The tolerated halves are
also recorded: `nbt_lib` does map a *missing* cache to `[]`, and `nbtcore`
does map a *malformed* cache to `{}`. -/
theorem usercache_tolerance_bug :
    load_usercache_lib CacheState.malformed = Except.error () ∧
    load_usercache_core CacheState.absent = Option.none ∧
    list_players_core CacheState.absent ["a.dat".data] = Except.error () ∧
    load_usercache_lib CacheState.absent = Except.ok [] ∧
    load_usercache_core CacheState.malformed = some [] :=
  ⟨rfl, rfl, by rfl, rfl, rfl⟩

/-! ### Free-slot search (claim C7) -/

/-- The `Slot` field of one inventory element as `int(it.get('Slot', -1))`
sees it: present and convertible, absent (contributing `-1`), or present but
unconvertible (`int()` raises; the `except: pass` skips the element). -/
inductive SlotField : Type where
  | absent
  | bad
  | val (i : Int)
deriving DecidableEq

/-- One iteration of `find_next_free_slot`'s `occupied.add(...)` loop. -/
def occStep (occ : List Int) (it : SlotField) : List Int :=
  match it with
  | .absent => occ ++ [(-1 : Int)]
  | .bad => occ
  | .val n => occ ++ [n]

/-- The `occupied` set (membership is all that matters). -/
def occupiedSlots (inv : List SlotField) : List Int :=
  inv.foldl occStep []

/-- `for s in range(s0, s0 + remaining): if s not in occupied: return s` /
`return None` — the loop is driven by the count of slots left to scan, so the
recursion is structural. -/
def freeSlotLoop (occ : List Int) : Nat → Nat → Option Nat
  | 0, _ => Option.none
  | remaining + 1, s =>
    if (s : Int) ∈ occ then freeSlotLoop occ remaining (s + 1) else some s

/-- `nbtcore.find_next_free_slot`: scan slots 0..35. -/
def find_next_free_slot (inv : List SlotField) : Option Nat :=
  freeSlotLoop (occupiedSlots inv) 36 0

/-- The inline free-slot search of `nbt_tool.handle_give_item`:
`used_slots = {item.get('Slot', -1) for item in inventory}` (no `int(...)`
conversion there — elements are plain decoded dicts), then scan
`range(max_slot)`. -/
def usedSlots (inv : List (Option Int)) : List Int :=
  inv.map (fun s => s.getD (-1))

def find_empty_slot (inv : List (Option Int)) (maxSlot : Nat) : Option Nat :=
  freeSlotLoop (usedSlots inv) maxSlot 0

theorem occupiedSlots_mem_aux (x : Int) :
    ∀ (inv : List SlotField) (acc : List Int),
      (x ∈ inv.foldl occStep acc ↔
        x ∈ acc ∨ (x = -1 ∧ SlotField.absent ∈ inv) ∨ SlotField.val x ∈ inv)
  | [], acc => by simp
  | it :: rest, acc => by
    rw [List.foldl_cons]
    rw [occupiedSlots_mem_aux x rest (occStep acc it)]
    cases it <;> simp [occStep] <;> tauto

theorem occupiedSlots_mem (inv : List SlotField) (s : Nat) :
    ((s : Int) ∈ occupiedSlots inv) ↔ SlotField.val (s : Int) ∈ inv := by
  rw [occupiedSlots, occupiedSlots_mem_aux]
  have hne : ¬ ((s : Int) = -1) := by omega
  simp [hne]

theorem usedSlots_mem (inv : List (Option Int)) (s : Nat) :
    ((s : Int) ∈ usedSlots inv) ↔ some (s : Int) ∈ inv := by
  rw [usedSlots, List.mem_map]
  constructor
  · rintro ⟨o, ho, hv⟩
    cases o with
    | none =>
      exfalso
      simp only [Option.getD] at hv
      omega
    | some v =>
      simp only [Option.getD] at hv
      rw [hv] at ho
      exact ho
  · intro h
    exact ⟨some (s : Int), h, rfl⟩

theorem freeSlotLoop_spec (occ : List Int) :
    ∀ (remaining s : Nat),
      (freeSlotLoop occ remaining s = Option.none ↔
        ∀ t, s ≤ t → t < s + remaining → (t : Int) ∈ occ) ∧
      (∀ k, freeSlotLoop occ remaining s = some k →
        s ≤ k ∧ k < s + remaining ∧ (k : Int) ∉ occ ∧
          ∀ j, s ≤ j → j < k → (j : Int) ∈ occ)
  | 0, s => by
    constructor
    · rw [freeSlotLoop]
      constructor
      · intro _ t ht hlt
        omega
      · intro _
        rfl
    · intro k hk
      exact absurd hk (by rw [freeSlotLoop]; simp)
  | remaining + 1, s => by
    obtain ⟨ihNone, ihSome⟩ := freeSlotLoop_spec occ remaining (s + 1)
    rw [freeSlotLoop]
    by_cases hmem : (s : Int) ∈ occ
    · rw [if_pos hmem]
      constructor
      · rw [ihNone]
        constructor
        · intro hall t ht hlt
          rcases Nat.eq_or_lt_of_le ht with heq | hgt
          · rw [← heq]
            exact hmem
          · exact hall t hgt (by omega)
        · intro hall t ht hlt
          exact hall t (by omega) (by omega)
      · intro k hk
        obtain ⟨hk1, hk2, hk3, hk4⟩ := ihSome k hk
        refine ⟨by omega, by omega, hk3, ?_⟩
        intro j hj hjk
        rcases Nat.eq_or_lt_of_le hj with heq | hgt
        · rw [← heq]
          exact hmem
        · exact hk4 j hgt hjk
    · rw [if_neg hmem]
      constructor
      · constructor
        · intro hk
          exact absurd hk (by simp)
        · intro hall
          exact absurd (hall s (by omega) (by omega)) hmem
      · intro k hk
        have hks : k = s := (Option.some.inj hk).symm
        subst hks
        exact ⟨Nat.le_refl k, by omega, hmem, fun j hj hjk => by omega⟩

/-- C7: `find_free_slot` correctness, for both implementations.
`nbtcore.find_next_free_slot` (range 0..36) returns `None` iff every slot
`0..35` is occupied by some element's `Slot` field, and otherwise the smallest
unoccupied slot; the inline search of `nbt_tool.handle_give_item` satisfies
the same property for its parametric bound (27 or 36). -/
theorem find_free_slot_correct :
    (∀ inv : List SlotField,
      (find_next_free_slot inv = Option.none ↔
        ∀ s : Nat, s < 36 → SlotField.val (s : Int) ∈ inv) ∧
      (∀ k, find_next_free_slot inv = some k →
        k < 36 ∧ SlotField.val (k : Int) ∉ inv ∧
          ∀ j, j < k → SlotField.val (j : Int) ∈ inv)) ∧
    (∀ (inv : List (Option Int)) (maxSlot : Nat),
      (find_empty_slot inv maxSlot = Option.none ↔
        ∀ s : Nat, s < maxSlot → some (s : Int) ∈ inv) ∧
      (∀ k, find_empty_slot inv maxSlot = some k →
        k < maxSlot ∧ some (k : Int) ∉ inv ∧ ∀ j, j < k → some (j : Int) ∈ inv)) := by
  constructor
  · intro inv
    obtain ⟨hNone, hSome⟩ := freeSlotLoop_spec (occupiedSlots inv) 36 0
    constructor
    · rw [find_next_free_slot, hNone]
      constructor
      · intro hall s hs
        rw [← occupiedSlots_mem]
        exact hall s (by omega) hs
      · intro hall t _ ht
        rw [occupiedSlots_mem]
        exact hall t ht
    · intro k hk
      obtain ⟨_, hk2, hk3, hk4⟩ := hSome k hk
      refine ⟨hk2, ?_, ?_⟩
      · rw [← occupiedSlots_mem]
        exact hk3
      · intro j hj
        rw [← occupiedSlots_mem]
        exact hk4 j (by omega) hj
  · intro inv maxSlot
    obtain ⟨hNone, hSome⟩ := freeSlotLoop_spec (usedSlots inv) maxSlot 0
    constructor
    · rw [find_empty_slot, hNone]
      constructor
      · intro hall s hs
        rw [← usedSlots_mem]
        exact hall s (by omega) (by omega)
      · intro hall t _ ht
        rw [usedSlots_mem]
        exact hall t (by omega)
    · intro k hk
      obtain ⟨_, hk2, hk3, hk4⟩ := hSome k hk
      refine ⟨by omega, ?_, ?_⟩
      · rw [← usedSlots_mem]
        exact hk3
      · intro j hj
        rw [← usedSlots_mem]
        exact hk4 j (by omega) hj

/-- Closed instance of `find_free_slot_correct` at the spec's S4 scenario:
slots {0,1,2,4,5} occupied, the search returns 3 — inside range, unoccupied,
and all smaller slots occupied. -/
theorem find_free_slot_correct_witness :
    (3 : Nat) < 36 ∧ SlotField.val ((3 : Nat) : Int) ∉
        [SlotField.val 0, SlotField.val 1, SlotField.val 2,
          SlotField.val 4, SlotField.val 5] ∧
      ∀ j : Nat, j < 3 → SlotField.val ((j : Nat) : Int) ∈
        [SlotField.val 0, SlotField.val 1, SlotField.val 2,
          SlotField.val 4, SlotField.val 5] :=
  (find_free_slot_correct.1
      [SlotField.val 0, SlotField.val 1, SlotField.val 2,
        SlotField.val 4, SlotField.val 5]).2 3 (by rfl)

/-! ### Slot-indexed replacement (claim C8)

`mcplayer2.add_item_to_list` removes every element whose
`int(e.get("Slot", -1))` equals the chosen slot (iterating over a copy and
calling `inv.remove(e)` for each match — by-value removal, net effect a
filter) and appends `Compound({"Slot": Byte(slot), "id": …, "count": …})`;
`panels.InventoryPanel.on_button_pressed` does the same with an explicit
filter comprehension. -/

/-- An inventory element: its `Slot` field (absent elements read as `-1`
through `e.get("Slot", -1)`), item id, count. -/
structure InvItem where
  slot : Option Int
  id : PyStr
  count : Int
deriving DecidableEq

/-- `replace_at_slot`: drop every element at the new item's slot, append the
new item (which always carries its `Slot`). -/
def replace_at_slot (inv : List InvItem) (slot : Int) (iid : PyStr) (cnt : Int) :
    List InvItem :=
  (inv.filter (fun e => ¬ (e.slot.getD (-1) = slot))) ++ [⟨some slot, iid, cnt⟩]

/-- "At most one entry per `Slot` value": no `Slot` value is carried by two
elements. -/
def UniqueSlots (inv : List InvItem) : Prop :=
  ∀ v : Int, inv.countP (fun e => e.slot = some v) ≤ 1

theorem replace_at_slot_preserves (inv : List InvItem) (slot : Int) (iid : PyStr)
    (cnt : Int) (h : UniqueSlots inv) : UniqueSlots (replace_at_slot inv slot iid cnt) := by
  intro v
  rw [replace_at_slot, List.countP_append]
  by_cases hv : v = slot
  · subst hv
    have hzero : (inv.filter (fun e => ¬ (e.slot.getD (-1) = v))).countP
        (fun e => e.slot = some v) = 0 := by
      rw [List.countP_eq_zero]
      intro e he
      obtain ⟨_, hq⟩ := List.mem_filter.mp he
      simp only [decide_eq_true_eq] at hq ⊢
      intro hslot
      rw [hslot] at hq
      simp at hq
    rw [hzero]
    simp [List.countP_cons]
  · have hone : ([(⟨some slot, iid, cnt⟩ : InvItem)]).countP
        (fun e => e.slot = some v) = 0 := by
      rw [List.countP_eq_zero]
      intro e he
      rw [List.mem_singleton] at he
      subst he
      simp only [decide_eq_true_eq]
      intro hc
      exact hv (Option.some.inj hc).symm
    rw [hone, Nat.add_zero]
    calc (inv.filter (fun e => ¬ (e.slot.getD (-1) = slot))).countP
          (fun e => e.slot = some v)
        ≤ inv.countP (fun e => e.slot = some v) := by
          rw [List.countP_filter]
          exact List.countP_mono_left (fun e _ hc => by simp_all)
      _ ≤ 1 := h v

/-- C8: starting from an inventory with at most one entry per `Slot` value,
any sequence of `replace_at_slot` operations (each removes every element at
the new item's slot, then appends the item) preserves that invariant. -/
theorem replace_at_slot_unique_after_any_sequence (inv : List InvItem)
    (h : UniqueSlots inv) :
    ∀ ops : List (Int × PyStr × Int),
      UniqueSlots (ops.foldl (fun acc op => replace_at_slot acc op.1 op.2.1 op.2.2) inv) := by
  intro ops
  induction ops generalizing inv with
  | nil => exact h
  | cons op rest ih =>
    rw [List.foldl_cons]
    exact ih (replace_at_slot inv op.1 op.2.1 op.2.2)
      (replace_at_slot_preserves inv op.1 op.2.1 op.2.2 h)

/-- Closed instance of `replace_at_slot_unique_after_any_sequence`: two
replacements at the same slot starting from the empty inventory still leave
at most one entry per slot. -/
theorem replace_at_slot_unique_witness :
    UniqueSlots ([((3 : Int), "minecraft:stone".data, (1 : Int)),
        ((3 : Int), "minecraft:dirt".data, (2 : Int))].foldl
      (fun acc op => replace_at_slot acc op.1 op.2.1 op.2.2) []) :=
  replace_at_slot_unique_after_any_sequence [] (fun v => by simp)
    [((3 : Int), "minecraft:stone".data, (1 : Int)),
      ((3 : Int), "minecraft:dirt".data, (2 : Int))]

/-! ### Python string helpers for the item-spec parser

Parser-side Python strings are `List Char` (`PyStr`). -/

/-- The apostrophe and backslash characters (named to keep literals tidy). -/
def aposChar : Char := Char.ofNat 39

def dquoteChar : Char := Char.ofNat 34

def backslashChar : Char := Char.ofNat 92

/-- Python's `str.strip()` whitespace class (ASCII part). -/
def isPySpace (c : Char) : Bool :=
  c = ' ' ∨ c = '\t' ∨ c = '\n' ∨ c = '\r' ∨ c = Char.ofNat 11 ∨ c = Char.ofNat 12

/-- `s.strip()`. -/
def pyStrip (s : PyStr) : PyStr :=
  ((s.dropWhile isPySpace).reverse.dropWhile isPySpace).reverse

/-- `s.strip(chars)`. -/
def pyStripChars (cs : List Char) (s : PyStr) : PyStr :=
  ((s.dropWhile (· ∈ cs)).reverse.dropWhile (· ∈ cs)).reverse

/-- `s.split(None, 1)`. -/
def pySplitWs1 (s : PyStr) : List PyStr :=
  let s1 := s.dropWhile isPySpace
  let tok := s1.takeWhile (fun c => ¬ isPySpace c)
  let rest := (s1.dropWhile (fun c => ¬ isPySpace c)).dropWhile isPySpace
  if tok = [] then [] else if rest = [] then [tok] else [tok, rest]

/-- `s.split()` (split on whitespace runs, no empty tokens). -/
def pySplitWsAll (s : PyStr) : List PyStr :=
  let p := s.foldr
    (fun c acc =>
      if isPySpace c then (([] : PyStr), if acc.1 = [] then acc.2 else acc.1 :: acc.2)
      else (c :: acc.1, acc.2))
    (([] : PyStr), ([] : List PyStr))
  if p.1 = [] then p.2 else p.1 :: p.2

/-- `s.split(sep, 1)` when `sep` occurs in `s` (the pair of the parts before
and after the first occurrence); returns `(s, [])` when it does not — every
use below is guarded by a membership test, as in the source. -/
def splitOnFirst (sep : Char) : PyStr → PyStr × PyStr
  | [] => ([], [])
  | c :: rest =>
    if c = sep then ([], rest)
    else
      let p := splitOnFirst sep rest
      (c :: p.1, p.2)

/-- `s.rfind(c)`: index of the last occurrence, `-1` if absent. -/
def pyRfindAux (c : Char) : PyStr → Nat → Int
  | [], _ => -1
  | x :: rest, i =>
    let r := pyRfindAux c rest (i + 1)
    if r ≠ -1 then r else if x = c then (i : Int) else -1

def pyRfind (c : Char) (s : PyStr) : Int := pyRfindAux c s 0

/-- `s[i:]` with Python index semantics. -/
def sliceFrom (s : PyStr) (i : Int) : PyStr := s.drop (clampIdx s.length i)

/-- `s[:i]` with Python index semantics. -/
def sliceTo (s : PyStr) (i : Int) : PyStr := s.take (clampIdx s.length i)

def isDigitCh (c : Char) : Bool := '0' ≤ c ∧ c ≤ '9'

/-- `s.isdigit()` (ASCII digits; true only for non-empty all-digit strings). -/
def pyIsdigit (s : PyStr) : Bool := ¬ (s = []) ∧ s.all isDigitCh

def digitsToNat (s : PyStr) : Nat :=
  s.foldl (fun a c => a * 10 + (c.toNat - 48)) 0

/-- Python `int(s)` (sign + decimal digits; digit-group underscores are not
modelled). -/
def pyInt (s : PyStr) : Option Int :=
  let t := pyStrip s
  match t with
  | '+' :: ds => if pyIsdigit ds then some ((digitsToNat ds : Int)) else Option.none
  | '-' :: ds => if pyIsdigit ds then some (-(digitsToNat ds : Int)) else Option.none
  | ds => if pyIsdigit ds then some ((digitsToNat ds : Int)) else Option.none

def asciiLower (s : PyStr) : PyStr := s.map Char.toLower

/-- Split at the first `e`/`E` (for float-literal recognition). -/
def splitExpo : PyStr → PyStr × Option PyStr
  | [] => ([], Option.none)
  | c :: rest =>
    if c = 'e' ∨ c = 'E' then ([], some rest)
    else
      let p := splitExpo rest
      (c :: p.1, p.2)

def mantissaOk (m : PyStr) : Bool :=
  let intPart := m.takeWhile isDigitCh
  let rest := m.drop intPart.length
  match rest with
  | [] => ¬ (intPart = [])
  | '.' :: frac => (¬ (intPart = []) ∨ ¬ (frac = [])) ∧ frac.all isDigitCh
  | _ => false

def expOk (e : PyStr) : Bool :=
  let t := match e with
    | '+' :: r => r
    | '-' :: r => r
    | r => r
  ¬ (t = []) ∧ t.all isDigitCh

/-- Does Python `float(s)` accept `s`?  (Decimal literals with optional sign,
point and exponent; `inf`/`nan` spellings are not modelled — they are only
reachable here for strings containing `'.'`, which they never do.) -/
def isFloatLit (s : PyStr) : Bool :=
  let t := match s with
    | '+' :: r => r
    | '-' :: r => r
    | r => r
  match splitExpo t with
  | (m, Option.none) => mantissaOk m
  | (m, some e) => mantissaOk m ∧ expOk e

/-- `s.replace(pat, rep)` (leftmost, non-overlapping; `pat` non-empty at
every use site). -/
def pyReplace (pat rep : PyStr) : PyStr → PyStr
  | [] => []
  | c :: rest =>
    if ¬ (pat = []) ∧ pat.isPrefixOf (c :: rest) then
      rep ++ pyReplace pat rep ((c :: rest).drop pat.length)
    else c :: pyReplace pat rep rest
termination_by s => s.length
decreasing_by
  · rename_i h
    have hlen : pat.length ≤ (c :: rest).length := List.IsPrefix.length_le
      (List.isPrefixOf_iff_prefix.mp h.2)
    have hpos : 0 < pat.length := by
      cases pat with
      | nil => exact absurd rfl h.1
      | cons p ps => simp
    simp only [List.length_drop, List.length_cons]
    omega
  · simp

/-! ### The component splitters of `parse_nbt_components` and
`parse_nbt_compound`/`parse_nbt_list`

Both are hand-written scanners that split on commas at depth 0 outside
string quotes; only the one in `parse_nbt_components` handles backslash
escapes.  A single `in_string` flag is toggled by *either* quote character.
The `pos`/`seps` fields instrument the `parse_nbt_components` scanner with
the indices at which it split (they influence nothing else). -/

structure ScanSt where
  parts : List PyStr
  current : PyStr
  depth : Int
  inString : Bool
  escape : Bool
  pos : Nat
  seps : List Nat

/-- One loop iteration of the splitter in `parse_nbt_components`. -/
def compStep (st : ScanSt) (c : Char) : ScanSt :=
  if st.escape then
    { st with current := st.current ++ [c], escape := false, pos := st.pos + 1 }
  else if c = backslashChar then
    { st with escape := true, current := st.current ++ [c], pos := st.pos + 1 }
  else if c = dquoteChar ∨ c = aposChar then
    { st with inString := ¬ st.inString, current := st.current ++ [c], pos := st.pos + 1 }
  else if ¬ st.inString then
    if c = '{' ∨ c = '[' then
      { st with depth := st.depth + 1, current := st.current ++ [c], pos := st.pos + 1 }
    else if c = '}' ∨ c = ']' then
      { st with depth := st.depth - 1, current := st.current ++ [c], pos := st.pos + 1 }
    else if c = ',' ∧ st.depth = 0 then
      { st with
        parts := st.parts ++ [pyStrip st.current]
        current := []
        pos := st.pos + 1
        seps := st.seps ++ [st.pos] }
    else { st with current := st.current ++ [c], pos := st.pos + 1 }
  else { st with current := st.current ++ [c], pos := st.pos + 1 }

def scanInit : ScanSt := ⟨[], [], 0, false, false, 0, []⟩

def splitComponentsScan (s : PyStr) : ScanSt := s.foldl compStep scanInit

/-- The `parts` list the `parse_nbt_components` splitter produces. -/
def splitComponentsStr (s : PyStr) : List PyStr :=
  if ¬ ((splitComponentsScan s).current = []) then
    (splitComponentsScan s).parts ++ [pyStrip (splitComponentsScan s).current]
  else (splitComponentsScan s).parts

structure NestSt where
  parts : List PyStr
  current : PyStr
  depth : Int
  inString : Bool

/-- One loop iteration of the splitter shared by `parse_nbt_compound` and
`parse_nbt_list` (no escape handling there). -/
def nestStep (st : NestSt) (c : Char) : NestSt :=
  if c = dquoteChar ∨ c = aposChar then
    { st with inString := ¬ st.inString, current := st.current ++ [c] }
  else if ¬ st.inString then
    if c = '{' ∨ c = '[' then { st with depth := st.depth + 1, current := st.current ++ [c] }
    else if c = '}' ∨ c = ']' then { st with depth := st.depth - 1, current := st.current ++ [c] }
    else if c = ',' ∧ st.depth = 0 then
      { st with parts := st.parts ++ [pyStrip st.current], current := [] }
    else { st with current := st.current ++ [c] }
  else { st with current := st.current ++ [c] }

/-- The scanner state after the `parse_nbt_compound`/`parse_nbt_list` loop. -/
def splitNestedScan (s : PyStr) : NestSt := s.foldl nestStep ⟨[], [], 0, false⟩

def splitNested (s : PyStr) : List PyStr :=
  if ¬ ((splitNestedScan s).current = []) then
    (splitNestedScan s).parts ++ [pyStrip (splitNestedScan s).current]
  else (splitNestedScan s).parts

/-! ### Size lemmas used for the parser's termination -/

/-- The termination weight of a parts list. -/
def sizeParts (ps : List PyStr) : Nat :=
  (ps.map (fun p => p.length + 1)).sum

theorem sizeParts_append (ps : List PyStr) (p : PyStr) :
    sizeParts (ps ++ [p]) = sizeParts ps + (p.length + 1) := by
  simp [sizeParts]

theorem sizeParts_cons (p : PyStr) (ps : List PyStr) :
    sizeParts (p :: ps) = (p.length + 1) + sizeParts ps := by
  simp [sizeParts]

theorem pyStrip_length_le (s : PyStr) : (pyStrip s).length ≤ s.length := by
  unfold pyStrip
  calc ((s.dropWhile isPySpace).reverse.dropWhile isPySpace).reverse.length
      = ((s.dropWhile isPySpace).reverse.dropWhile isPySpace).length := by
        rw [List.length_reverse]
    _ ≤ (s.dropWhile isPySpace).reverse.length := (List.dropWhile_sublist isPySpace).length_le
    _ = (s.dropWhile isPySpace).length := by rw [List.length_reverse]
    _ ≤ s.length := (List.dropWhile_sublist isPySpace).length_le

theorem splitOnFirst_snd_length_le (sep : Char) :
    ∀ s : PyStr, (splitOnFirst sep s).2.length ≤ s.length
  | [] => by simp [splitOnFirst]
  | c :: rest => by
    rw [splitOnFirst]
    by_cases h : c = sep
    · rw [if_pos h]
      simp
    · rw [if_neg h]
      have := splitOnFirst_snd_length_le sep rest
      simpa using Nat.le_trans this (by simp)

theorem nestStep_size (st : NestSt) (c : Char) :
    sizeParts (nestStep st c).parts + (nestStep st c).current.length ≤
      sizeParts st.parts + st.current.length + 1 := by
  unfold nestStep
  split_ifs <;>
    simp_all [sizeParts_append] <;>
    have := pyStrip_length_le st.current <;>
    omega

theorem nestFold_size : ∀ (s : PyStr) (st : NestSt),
    sizeParts (s.foldl nestStep st).parts + (s.foldl nestStep st).current.length ≤
      sizeParts st.parts + st.current.length + s.length
  | [], st => by simp
  | c :: rest, st => by
    rw [List.foldl_cons]
    calc sizeParts ((rest.foldl nestStep (nestStep st c)).parts) +
          (rest.foldl nestStep (nestStep st c)).current.length
        ≤ sizeParts (nestStep st c).parts + (nestStep st c).current.length + rest.length :=
          nestFold_size rest (nestStep st c)
      _ ≤ sizeParts st.parts + st.current.length + 1 + rest.length := by
          have := nestStep_size st c
          omega
      _ = sizeParts st.parts + st.current.length + (c :: rest).length := by
          simp
          omega

theorem splitNested_size (s : PyStr) : sizeParts (splitNested s) ≤ s.length + 1 := by
  unfold splitNested
  have h := nestFold_size s ⟨[], [], 0, false⟩
  rw [show (s.foldl nestStep ⟨[], [], 0, false⟩) = splitNestedScan s from rfl] at h
  simp only [sizeParts, List.map_nil, List.sum_nil, List.length_nil] at h
  split_ifs with hcur
  · simp only [sizeParts] at h ⊢
    omega
  · rw [sizeParts_append]
    have := pyStrip_length_le (splitNestedScan s).current
    simp only [sizeParts] at h ⊢
    omega

theorem compStep_size (st : ScanSt) (c : Char) :
    sizeParts (compStep st c).parts + (compStep st c).current.length ≤
      sizeParts st.parts + st.current.length + 1 := by
  unfold compStep
  split_ifs <;>
    simp_all [sizeParts_append] <;>
    have := pyStrip_length_le st.current <;>
    omega

theorem compFold_size : ∀ (s : PyStr) (st : ScanSt),
    sizeParts (s.foldl compStep st).parts + (s.foldl compStep st).current.length ≤
      sizeParts st.parts + st.current.length + s.length
  | [], st => by simp
  | c :: rest, st => by
    rw [List.foldl_cons]
    calc sizeParts ((rest.foldl compStep (compStep st c)).parts) +
          (rest.foldl compStep (compStep st c)).current.length
        ≤ sizeParts (compStep st c).parts + (compStep st c).current.length + rest.length :=
          compFold_size rest (compStep st c)
      _ ≤ sizeParts st.parts + st.current.length + 1 + rest.length := by
          have := compStep_size st c
          omega
      _ = sizeParts st.parts + st.current.length + (c :: rest).length := by
          simp
          omega

theorem splitComponentsStr_size (s : PyStr) :
    sizeParts (splitComponentsStr s) ≤ s.length + 1 := by
  unfold splitComponentsStr
  have h := compFold_size s scanInit
  rw [show (s.foldl compStep scanInit) = splitComponentsScan s from rfl] at h
  simp only [scanInit, sizeParts, List.map_nil, List.sum_nil, List.length_nil] at h
  split_ifs with hcur
  · simp only [sizeParts] at h ⊢
    omega
  · rw [sizeParts_append]
    have := pyStrip_length_le (splitComponentsScan s).current
    simp only [sizeParts] at h ⊢
    omega

theorem firstLast_ne_length_ge2 {a b : Char} (hab : a ≠ b) :
    ∀ v : PyStr, v.head? = some a → v.getLast? = some b → 2 ≤ v.length
  | [], h1, _ => by simp at h1
  | [c], h1, h2 => by
    have e1 : c = a := by simpa using h1
    have e2 : c = b := by simpa using h2
    exact absurd (e1.symm.trans e2) hab
  | _ :: _ :: _, _, _ => by simp

/-! ### Parser values and `json.loads`

The item-spec parser produces plain Python values.  Float values are kept as
their accepted literal text (`PVal.float`): no claim inspects a float's
numeric value, and this keeps IEEE semantics out of the embedding. -/

inductive PVal : Type where
  | none : PVal
  | bool (b : Bool) : PVal
  | int (n : Int) : PVal
  | float (lit : PyStr) : PVal
  | str (s : PyStr) : PVal
  | list (xs : List PVal) : PVal
  | dict (es : List (PyStr × PVal)) : PVal

/-- JSON whitespace. -/
def jsonWsSkip (s : PyStr) : PyStr :=
  s.dropWhile (fun c => c = ' ' ∨ c = '\t' ∨ c = '\n' ∨ c = '\r')

/-- One escape character inside a JSON string (`\uXXXX` escapes are not
modelled: they make the parse fail, and `parse_nbt_value` then degrades the
quoted value to a literal string — a divergence from CPython only for inputs
that use them). -/
def jsonEsc (e : Char) : Option Char :=
  if e = dquoteChar then some dquoteChar
  else if e = backslashChar then some backslashChar
  else if e = '/' then some '/'
  else if e = 'b' then some (Char.ofNat 8)
  else if e = 'f' then some (Char.ofNat 12)
  else if e = 'n' then some '\n'
  else if e = 'r' then some '\r'
  else if e = 't' then some '\t'
  else Option.none

/-- JSON string body after the opening quote. -/
def jsonString : PyStr → Option (PyStr × PyStr)
  | [] => Option.none
  | c :: r =>
    if c = dquoteChar then some ([], r)
    else if c = backslashChar then
      match r with
      | [] => Option.none
      | e :: r2 =>
        match jsonEsc e with
        | Option.none => Option.none
        | some ch => (jsonString r2).map (fun p => (ch :: p.1, p.2))
    else if c.toNat < 0x20 then Option.none
    else (jsonString r).map (fun p => (c :: p.1, p.2))

/-- Fraction part: `.digits` or nothing. -/
def jsonFrac : PyStr → Option (PyStr × PyStr)
  | '.' :: r =>
    let ds := r.takeWhile isDigitCh
    if ds = [] then Option.none else some (ds, r.drop ds.length)
  | r => some ([], r)

/-- Exponent part: `e|E [+|-] digits` or nothing. -/
def jsonExpPart : PyStr → Option (Bool × PyStr)
  | [] => some (false, [])
  | c :: r =>
    if c = 'e' ∨ c = 'E' then
      let t := match r with
        | '+' :: r2 => r2
        | '-' :: r2 => r2
        | r2 => r2
      let ds := t.takeWhile isDigitCh
      if ds = [] then Option.none else some (true, t.drop ds.length)
    else some (false, c :: r)

/-- JSON number (strict grammar: no leading zeros, mandatory digits). -/
def jsonNumber (s : PyStr) : Option (PVal × PyStr) :=
  let neg := s.head? = some '-'
  let t := if neg then s.drop 1 else s
  let ds := t.takeWhile isDigitCh
  if ds = [] then Option.none
  else if 1 < ds.length ∧ ds.head? = some '0' then Option.none
  else
    let r1 := t.drop ds.length
    match jsonFrac r1 with
    | Option.none => Option.none
    | some (fds, r2) =>
      match jsonExpPart r2 with
      | Option.none => Option.none
      | some (hasExp, r3) =>
        if fds = [] ∧ ¬ hasExp then
          some (.int (if neg then -(digitsToNat ds : Int) else (digitsToNat ds : Int)), r3)
        else some (.float (s.take (s.length - r3.length)), r3)

mutual

/-- A JSON value (fuel-driven recursive descent). -/
def jsonValue : Nat → PyStr → Option (PVal × PyStr)
  | 0, _ => Option.none
  | fuel + 1, s0 =>
    match jsonWsSkip s0 with
    | 'n' :: 'u' :: 'l' :: 'l' :: r => some (.none, r)
    | 't' :: 'r' :: 'u' :: 'e' :: r => some (.bool true, r)
    | 'f' :: 'a' :: 'l' :: 's' :: 'e' :: r => some (.bool false, r)
    | c :: r =>
      if c = dquoteChar then (jsonString r).map (fun p => (PVal.str p.1, p.2))
      else if c = '[' then jsonArray fuel (jsonWsSkip r)
      else if c = '{' then jsonObject fuel (jsonWsSkip r)
      else jsonNumber (c :: r)
    | [] => jsonNumber []

def jsonArray : Nat → PyStr → Option (PVal × PyStr)
  | 0, _ => Option.none
  | fuel + 1, s =>
    match s with
    | ']' :: r => some (.list [], r)
    | _ =>
      match jsonValue fuel s with
      | Option.none => Option.none
      | some (v, r1) => jsonArrayRest fuel [v] r1

def jsonArrayRest : Nat → List PVal → PyStr → Option (PVal × PyStr)
  | 0, _, _ => Option.none
  | fuel + 1, acc, s =>
    match jsonWsSkip s with
    | ',' :: r =>
      match jsonValue fuel r with
      | Option.none => Option.none
      | some (v, r1) => jsonArrayRest fuel (acc ++ [v]) r1
    | ']' :: r => some (.list acc, r)
    | _ => Option.none

def jsonMember : Nat → PyStr → Option ((PyStr × PVal) × PyStr)
  | 0, _ => Option.none
  | fuel + 1, s =>
    match jsonWsSkip s with
    | c :: r =>
      if ¬ (c = dquoteChar) then Option.none else
      match jsonString r with
      | Option.none => Option.none
      | some (k, r1) =>
        match jsonWsSkip r1 with
        | ':' :: r2 =>
          match jsonValue fuel r2 with
          | Option.none => Option.none
          | some (v, r3) => some ((k, v), r3)
        | _ => Option.none
    | [] => Option.none

def jsonObject : Nat → PyStr → Option (PVal × PyStr)
  | 0, _ => Option.none
  | fuel + 1, s =>
    match s with
    | '}' :: r => some (.dict [], r)
    | _ =>
      match jsonMember fuel s with
      | Option.none => Option.none
      | some ((k, v), r1) => jsonObjectRest fuel (dictInsert [] k v) r1

def jsonObjectRest : Nat → List (PyStr × PVal) → PyStr → Option (PVal × PyStr)
  | 0, _, _ => Option.none
  | fuel + 1, acc, s =>
    match jsonWsSkip s with
    | ',' :: r =>
      match jsonMember fuel r with
      | Option.none => Option.none
      | some ((k, v), r1) => jsonObjectRest fuel (dictInsert acc k v) r1
    | '}' :: r => some (.dict acc, r)
    | _ => Option.none

end

/-- `json.loads(s)`: parse one value, require only whitespace after it.
The fuel `2(|s|+1)` dominates the recursion depth of any input this model
accepts. -/
def jsonLoads (s : PyStr) : Option PVal :=
  match jsonValue (2 * (s.length + 1)) s with
  | some (v, r) => if jsonWsSkip r = [] then some v else Option.none
  | Option.none => Option.none

/-! ### `parse_nbt_value` / `parse_nbt_compound` / `parse_nbt_list` /
`parse_nbt_components`

The recursion peels at least one pair of brackets per value→compound/list
descent, so it terminates; the measure assigns weight `2·len+1` to a value,
`2·len` to the post-strip fall-through, `2·len+3` to a compound/list/
components body, and `Σ (2·|part|+2)` to a pending parts list. -/

/-- Weight bound for the per-entry recursive value parse. -/
theorem entry_value_weight (c : Char) (p : PyStr) (rest : List PyStr) :
    2 * (pyStrip (splitOnFirst c p).2).length + 1 < 2 * sizeParts (p :: rest) := by
  have h1 := splitOnFirst_snd_length_le c p
  have h2 := pyStrip_length_le (splitOnFirst c p).2
  have h3 : sizeParts (p :: rest) = (p.length + 1) + sizeParts rest := sizeParts_cons p rest
  omega

mutual

/-- `parse_nbt_value(value)`: quoted-JSON, boolean, number, compound, list,
plain string — in the source's order.  On a quoted value the two escape
`replace` calls run before `json.loads`; JSON failure degrades to the literal
string. -/
def parse_nbt_value (v0 : PyStr) : PVal :=
  if (((pyStrip v0).head? = some dquoteChar ∧ (pyStrip v0).getLast? = some dquoteChar) ∨
      ((pyStrip v0).head? = some aposChar ∧ (pyStrip v0).getLast? = some aposChar)) then
    match jsonLoads
      (pyReplace [backslashChar, dquoteChar] [dquoteChar]
        (pyReplace [backslashChar, aposChar] [aposChar]
          (((pyStrip v0).drop 1).dropLast))) with
    | some jv => jv
    | Option.none =>
      .str (pyReplace [backslashChar, dquoteChar] [dquoteChar]
        (pyReplace [backslashChar, aposChar] [aposChar]
          (((pyStrip v0).drop 1).dropLast)))
  else if asciiLower (pyStrip v0) = "true".data then .bool true
  else if asciiLower (pyStrip v0) = "false".data then .bool false
  else if '.' ∈ pyStrip v0 then
    if isFloatLit (pyStrip v0) then .float (pyStrip v0)
    else parse_nbt_fallthrough (pyStrip v0)
  else
    match pyInt (pyStrip v0) with
    | some n => .int n
    | Option.none => parse_nbt_fallthrough (pyStrip v0)
termination_by 2 * v0.length + 1
decreasing_by
  · have := pyStrip_length_le v0
    omega
  · have := pyStrip_length_le v0
    omega

/-- The compound/list/plain-string tail of `parse_nbt_value` (reached when
the number conversion raised). -/
def parse_nbt_fallthrough (v : PyStr) : PVal :=
  if h1 : v.head? = some '{' ∧ v.getLast? = some '}' then
    .dict (parse_nbt_compound ((v.drop 1).dropLast))
  else if h2 : v.head? = some '[' ∧ v.getLast? = some ']' then
    .list (parse_nbt_list ((v.drop 1).dropLast))
  else .str v
termination_by 2 * v.length
decreasing_by
  · have hlen := firstLast_ne_length_ge2 (by decide : ('{' : Char) ≠ '}') v h1.1 h1.2
    simp only [List.length_dropLast, List.length_drop]
    omega
  · have hlen := firstLast_ne_length_ge2 (by decide : ('[' : Char) ≠ ']') v h2.1 h2.2
    simp only [List.length_dropLast, List.length_drop]
    omega

/-- `parse_nbt_compound(content)`. -/
def parse_nbt_compound (m : PyStr) : List (PyStr × PVal) :=
  if pyStrip m = [] then []
  else parse_nbt_entries [] (splitNested (pyStrip m))
termination_by 2 * m.length + 3
decreasing_by
  · have h1 := splitNested_size (pyStrip m)
    have h2 := pyStrip_length_le m
    omega

/-- The entry loop of `parse_nbt_compound`: split each part at the first
`':'`, strip the key of whitespace and both quote characters, recurse on the
value. -/
def parse_nbt_entries (acc : List (PyStr × PVal)) : List PyStr → List (PyStr × PVal)
  | [] => acc
  | p :: rest =>
    if ':' ∈ p then
      parse_nbt_entries
        (dictInsert acc (pyStripChars [dquoteChar, aposChar] (pyStrip (splitOnFirst ':' p).1))
          (parse_nbt_value (pyStrip (splitOnFirst ':' p).2))) rest
    else parse_nbt_entries acc rest
termination_by ps => 2 * sizeParts ps
decreasing_by
  · exact entry_value_weight ':' _ _
  · simp only [sizeParts_cons]
    omega
  · simp only [sizeParts_cons]
    omega

/-- `parse_nbt_list(content)`. -/
def parse_nbt_list (m : PyStr) : List PVal :=
  if pyStrip m = [] then []
  else parse_nbt_values_list (splitNested (pyStrip m))
termination_by 2 * m.length + 3
decreasing_by
  · have h1 := splitNested_size (pyStrip m)
    have h2 := pyStrip_length_le m
    omega

def parse_nbt_values_list : List PyStr → List PVal
  | [] => []
  | p :: rest => parse_nbt_value p :: parse_nbt_values_list rest
termination_by ps => 2 * sizeParts ps
decreasing_by
  · simp only [sizeParts_cons]
    omega
  · simp only [sizeParts_cons]
    omega

/-- `parse_nbt_components(nbt_str)`. -/
def parse_nbt_components (t0 : PyStr) : List (PyStr × PVal) :=
  if pyStrip t0 = [] then []
  else parse_nbt_comp_entries [] (splitComponentsStr (pyStrip t0))

/-- The component loop of `parse_nbt_components`: split each part at the
first `'='`, namespace-qualify the key with `minecraft:` when it has no
`':'`, recurse on the value. -/
def parse_nbt_comp_entries (acc : List (PyStr × PVal)) : List PyStr → List (PyStr × PVal)
  | [] => acc
  | p :: rest =>
    if '=' ∈ p then
      parse_nbt_comp_entries
        (dictInsert acc
          (if ':' ∈ pyStrip (splitOnFirst '=' p).1 then pyStrip (splitOnFirst '=' p).1
            else "minecraft:".data ++ pyStrip (splitOnFirst '=' p).1)
          (parse_nbt_value (pyStrip (splitOnFirst '=' p).2))) rest
    else parse_nbt_comp_entries acc rest
termination_by ps => 2 * sizeParts ps
decreasing_by
  · simp only [sizeParts_cons]
    omega
  · simp only [sizeParts_cons]
    omega

end

/-! ### `parse_give_command` (claim C6) -/

/-- The preprocessing of `parse_give_command`: strip, drop a leading `give`,
then drop the first whitespace-separated token whenever a second one exists
(the source's `if/elif` assigns `parts[1]` in *both* branches, selector or
not). -/
def stripGive (s : PyStr) : PyStr :=
  match pySplitWs1 (if "give".data.isPrefixOf (pyStrip s)
      then pyStrip ((pyStrip s).drop 4) else pyStrip s) with
  | [p0, p1] => if p0.head? = some '@' then p1 else p1
  | _ =>
    if "give".data.isPrefixOf (pyStrip s) then pyStrip ((pyStrip s).drop 4) else pyStrip s

/-- The item id of the bracketed branch: the text before the first `[`,
stripped, `minecraft:`-qualified when it carries no `':'`. -/
def giveItemId (g : PyStr) : PyStr :=
  if ':' ∈ pyStrip (splitOnFirst '[' g).1 then pyStrip (splitOnFirst '[' g).1
  else "minecraft:".data ++ pyStrip (splitOnFirst '[' g).1

/-- Count extraction of the bracketed branch: when the bracket counts match
and the text after the last `]` is all digits, that is the count and the
component text is truncated there; otherwise count 1. -/
def giveCountAndNbt (nbt0 : PyStr) : Int × PyStr :=
  if nbt0.count '[' = nbt0.count ']' then
    if pyIsdigit (pyStrip (sliceFrom nbt0 (pyRfind ']' nbt0 + 1))) then
      ((digitsToNat (pyStrip (sliceFrom nbt0 (pyRfind ']' nbt0 + 1))) : Int),
        sliceTo nbt0 (pyRfind ']' nbt0 + 1))
    else (1, nbt0)
  else (1, nbt0)

/-- `parse_give_command(give_cmd)`.  With a `[` present the call always
returns; without one, a missing item token (`IndexError`) or an
unconvertible count (`ValueError`) raises — `Option.none`. -/
def parse_give_command (s : PyStr) : Option (PyStr × Int × List (PyStr × PVal)) :=
  if '[' ∈ stripGive s then
    some (giveItemId (stripGive s),
      (giveCountAndNbt ('[' :: (splitOnFirst '[' (stripGive s)).2)).1,
      parse_nbt_components
        ((((giveCountAndNbt ('[' :: (splitOnFirst '[' (stripGive s)).2)).2).drop 1).dropLast))
  else
    match pySplitWsAll (stripGive s) with
    | [] => Option.none
    | [i0] => some (i0, 1, [])
    | i0 :: c1 :: _ => (pyInt c1).map (fun n => (i0, n, []))

/-- C6 counterexample: the claim says an id without `':'` is returned as
`minecraft:<bare_id>` with or without components, but `parse_give_command`
adds the prefix only on the bracketed path: the accepted spec
`diamond_sword` is returned with the *unqualified* id `diamond_sword`. -/
theorem bare_id_not_namespaced_cex :
    parse_give_command "diamond_sword".data =
      some ("diamond_sword".data, 1, []) ∧
    ¬ (':' ∈ "diamond_sword".data) := by
  refine ⟨by rfl, by decide⟩

theorem dictInsert_mem_keys {κ β : Type} [DecidableEq κ] :
    ∀ (es : List (κ × β)) (k : κ) (v : β) (kv : κ × β),
      kv ∈ dictInsert es k v → kv.1 = k ∨ kv ∈ es
  | [], k, v, kv => by
    intro h
    rw [dictInsert, List.mem_singleton] at h
    subst h
    exact Or.inl rfl
  | (k0, v0) :: rest, k, v, kv => by
    intro h
    rw [dictInsert] at h
    by_cases he : k0 = k
    · rw [if_pos he, List.mem_cons] at h
      rcases h with h | h
      · subst h
        exact Or.inl he
      · exact Or.inr (List.mem_cons_of_mem _ h)
    · rw [if_neg he, List.mem_cons] at h
      rcases h with h | h
      · subst h
        exact Or.inr (List.mem_cons_self _ _)
      · rcases dictInsert_mem_keys rest k v kv h with h1 | h1
        · exact Or.inl h1
        · exact Or.inr (List.mem_cons_of_mem _ h1)

theorem comp_entries_keys :
    ∀ (ps : List PyStr) (acc : List (PyStr × PVal)),
      (∀ kv ∈ acc, ':' ∈ kv.1) →
      ∀ kv ∈ parse_nbt_comp_entries acc ps, ':' ∈ kv.1
  | [], acc => by
    intro hacc kv h
    rw [parse_nbt_comp_entries] at h
    exact hacc kv h
  | p :: rest, acc => by
    intro hacc kv h
    rw [parse_nbt_comp_entries] at h
    by_cases he : '=' ∈ p
    · rw [if_pos he] at h
      refine comp_entries_keys rest _ ?_ kv h
      intro kv2 h2
      rcases dictInsert_mem_keys _ _ _ kv2 h2 with h3 | h3
      · rw [h3]
        by_cases hc : ':' ∈ pyStrip (splitOnFirst '=' p).1
        · rw [if_pos hc]
          exact hc
        · rw [if_neg hc]
          exact List.mem_append_left _ (by decide)
      · exact hacc kv2 h3
    · rw [if_neg he] at h
      exact comp_entries_keys rest acc hacc kv h

theorem parse_nbt_components_keys (t0 : PyStr) :
    ∀ kv ∈ parse_nbt_components t0, ':' ∈ kv.1 := by
  intro kv h
  rw [parse_nbt_components] at h
  by_cases he : pyStrip t0 = []
  · rw [if_pos he] at h
    exact absurd h (List.not_mem_nil kv)
  · rw [if_neg he] at h
    exact comp_entries_keys _ [] (fun kv2 h2 => absurd h2 (List.not_mem_nil kv2)) kv h

theorem giveItemId_colon (g : PyStr) : ':' ∈ giveItemId g := by
  rw [giveItemId]
  by_cases hc : ':' ∈ pyStrip (splitOnFirst '[' g).1
  · rw [if_pos hc]
    exact hc
  · rw [if_neg hc]
    exact List.mem_append_left _ (by decide)

/-- C6 amended: the namespace qualification applies to the bracketed form.
Whenever `parse_give_command` accepts its input, (1) if a `[` survives the
give/selector preprocessing (a component list is present) the returned item
id contains `':'` — a bare id received the `minecraft:` prefix — and (2)
every top-level component key in the result contains `':'` (bare keys
received the `minecraft:` prefix).  An id given without components is
returned verbatim, unqualified (see `bare_id_not_namespaced_cex`). -/
theorem give_parser_namespaces (s iid : PyStr) (cnt : Int)
    (comps : List (PyStr × PVal))
    (h : parse_give_command s = some (iid, cnt, comps)) :
    (('[' ∈ stripGive s) → ':' ∈ iid) ∧ (∀ kv ∈ comps, ':' ∈ kv.1) := by
  rw [parse_give_command] at h
  by_cases hb : '[' ∈ stripGive s
  · rw [if_pos hb] at h
    have h2 := Option.some.inj h
    simp only [Prod.mk.injEq] at h2
    obtain ⟨h3, _, h5⟩ := h2
    constructor
    · intro _
      rw [← h3]
      exact giveItemId_colon _
    · intro kv hkv
      rw [← h5] at hkv
      exact parse_nbt_components_keys _ kv hkv
  · rw [if_neg hb] at h
    refine ⟨fun hb2 => absurd hb2 hb, ?_⟩
    cases e : pySplitWsAll (stripGive s) with
    | nil =>
      rw [e] at h
      exact absurd h (by simp)
    | cons i0 rest =>
      cases rest with
      | nil =>
        rw [e] at h
        have h9 : some (i0, (1 : Int), ([] : List (PyStr × PVal))) =
            some (iid, cnt, comps) := h
        have h2 := Option.some.inj h9
        simp only [Prod.mk.injEq] at h2
        obtain ⟨_, _, h5⟩ := h2
        intro kv hkv
        rw [← h5] at hkv
        exact absurd hkv (List.not_mem_nil kv)
      | cons c1 rest2 =>
        rw [e] at h
        have h9 : (pyInt c1).map (fun n => (i0, n, ([] : List (PyStr × PVal)))) =
            some (iid, cnt, comps) := h
        cases ep : pyInt c1 with
        | none =>
          rw [ep] at h9
          exact absurd h9 (by simp)
        | some n =>
          rw [ep] at h9
          have h2 := Option.some.inj h9
          simp only [Prod.mk.injEq] at h2
          obtain ⟨_, _, h5⟩ := h2
          intro kv hkv
          rw [← h5] at hkv
          exact absurd hkv (List.not_mem_nil kv)

/-- Closed instance of `give_parser_namespaces`: parsing
`give @p stick[] 2` yields the qualified id `minecraft:stick` (count 2, no
components), and the theorem's qualification conclusion holds there. -/
theorem give_parser_namespaces_witness :
    parse_give_command "give @p stick[] 2".data =
      some ("minecraft:stick".data, 2, []) ∧
    ':' ∈ "minecraft:stick".data := by
  have hc : '[' ∈ stripGive "give @p stick[] 2".data := by decide
  have harg :
      ((((giveCountAndNbt
        ('[' :: (splitOnFirst '[' (stripGive "give @p stick[] 2".data)).2)).2).drop 1).dropLast)
        = ([] : PyStr) := by decide
  have hcomps : parse_nbt_components ([] : PyStr) = [] := by
    rw [parse_nbt_components, if_pos (show pyStrip [] = [] from rfl)]
  have h : parse_give_command "give @p stick[] 2".data =
      some ("minecraft:stick".data, 2, []) := by
    rw [parse_give_command, if_pos hc, harg, hcomps]
    rfl
  exact ⟨h, (give_parser_namespaces _ _ _ _ h).1 hc⟩

/-! ### Claim C9: the component splitter versus string literals

The reference scanner below follows the specification's words: bracket depth,
*which* quote character opened the current string literal, and backslash
escapes.  It is the comparison point for the code's single-flag scanner. -/

/-- Reference scan state: nesting depth, the opening quote of the string
literal currently inside (if any), pending escape. -/
structure SpecScan where
  depth : Int
  inStr : Option Char
  escape : Bool

/-- Reference scanner step, from the spec's words: escapes are honoured, a
string opened by one quote character is closed only by the same character,
brackets count only outside string literals. -/
def specScanStep (st : SpecScan) (c : Char) : SpecScan :=
  if st.escape then { st with escape := false }
  else if c = backslashChar then { st with escape := true }
  else if st.inStr = Option.none then
    (if c = dquoteChar ∨ c = aposChar then { st with inStr := some c }
     else if c = '{' ∨ c = '[' then { st with depth := st.depth + 1 }
     else if c = '}' ∨ c = ']' then { st with depth := st.depth - 1 }
     else st)
  else if st.inStr = some c then { st with inStr := Option.none }
  else st

def specScan (s : PyStr) : SpecScan := s.foldl specScanStep ⟨0, Option.none, false⟩

/-- The input `k="a'b,c'd"`: one double-quoted string containing two
apostrophes and a comma. -/
def mixedQuoteInput : PyStr :=
  ['k', '=', dquoteChar, 'a', aposChar, 'b', ',', 'c', aposChar, 'd', dquoteChar]

/-- C9 counterexample: the comma of `mixedQuoteInput` at index 6 sits inside
a double-quoted string (the reference scanner is inside a `"`-literal there),
yet the `parse_nbt_components` splitter records index 6 as a separator — the
single `in_string` flag was toggled off by the apostrophe.  Its parts output
is consequently `["k=\x22a'b", "c'd\x22"]`: the quoted string is cut. -/
theorem comp_splitter_inside_string_cex :
    (splitComponentsScan mixedQuoteInput).seps = [6] ∧
    mixedQuoteInput.get? 6 = some ',' ∧
    (specScan (mixedQuoteInput.take 6)).inStr = some dquoteChar ∧
    splitComponentsStr mixedQuoteInput =
      [['k', '=', dquoteChar, 'a', aposChar, 'b'], ['c', aposChar, 'd', dquoteChar]] := by
  refine ⟨by rfl, by rfl, by rfl, by rfl⟩

theorem compStep_pos (st : ScanSt) (c : Char) : (compStep st c).pos = st.pos + 1 := by
  unfold compStep
  split_ifs <;> rfl

theorem compStep_seps (st : ScanSt) (c : Char) :
    ((compStep st c).seps = st.seps) ∨
    ((compStep st c).seps = st.seps ++ [st.pos] ∧ c = ',' ∧ st.escape = false ∧
      st.inString = false ∧ st.depth = 0) := by
  unfold compStep
  split_ifs <;>
    first
      | exact Or.inl rfl
      | (refine Or.inr ⟨rfl, ?_, ?_, ?_, ?_⟩ <;> simp_all)

/-- The coupling between the code's scanner state and the reference state:
equal depth and escape, the single flag agrees with "inside a literal", and —
on apostrophe-free input — any open literal is double-quoted. -/
def Coupled (st : ScanSt) (hs : SpecScan) : Prop :=
  st.depth = hs.depth ∧ st.inString = hs.inStr.isSome ∧ st.escape = hs.escape ∧
    (hs.inStr = Option.none ∨ hs.inStr = some dquoteChar)

theorem coupled_step (st : ScanSt) (hs : SpecScan) (c : Char)
    (hc : c ≠ aposChar) (h : Coupled st hs) :
    Coupled (compStep st c) (specScanStep hs c) := by
  obtain ⟨hd, hi, he, hq⟩ := h
  unfold compStep specScanStep
  by_cases h1 : st.escape = true
  · rw [if_pos h1, if_pos (show hs.escape = true from he ▸ h1)]
    exact ⟨hd, hi, rfl, hq⟩
  · rw [if_neg h1, if_neg (show ¬ hs.escape = true from fun hh => h1 (he.trans hh))]
    by_cases h2 : c = backslashChar
    · rw [if_pos h2, if_pos h2]
      exact ⟨hd, hi, rfl, hq⟩
    · rw [if_neg h2, if_neg h2]
      by_cases h3 : c = dquoteChar ∨ c = aposChar
      · have h3d : c = dquoteChar := by
          rcases h3 with h3d | h3a
          · exact h3d
          · exact absurd h3a hc
        rw [if_pos h3]
        rcases hq with hq | hq
        · have hif : st.inString = false := by rw [hi, hq]; rfl
          rw [if_pos hq, if_pos h3]
          refine ⟨hd, ?_, he, Or.inr (by rw [h3d])⟩
          simp [hif]
        · have hit : st.inString = true := by rw [hi, hq]; rfl
          rw [if_neg (by rw [hq]; simp), if_pos (by rw [hq, h3d])]
          refine ⟨hd, ?_, he, Or.inl rfl⟩
          simp [hit]
      · rw [if_neg h3]
        rcases hq with hq | hq
        · have hif : st.inString = false := by rw [hi, hq]; rfl
          rw [if_pos (by simp [hif]), if_pos hq, if_neg h3]
          by_cases h5 : c = '{' ∨ c = '['
          · rw [if_pos h5, if_pos h5]
            exact ⟨by rw [hd], hi, he, Or.inl hq⟩
          · rw [if_neg h5, if_neg h5]
            by_cases h6 : c = '}' ∨ c = ']'
            · rw [if_pos h6, if_pos h6]
              exact ⟨by rw [hd], hi, he, Or.inl hq⟩
            · rw [if_neg h6, if_neg h6]
              by_cases h7 : c = ',' ∧ st.depth = 0
              · rw [if_pos h7]
                exact ⟨hd, hi, he, Or.inl hq⟩
              · rw [if_neg h7]
                exact ⟨hd, hi, he, Or.inl hq⟩
        · have hit : st.inString = true := by rw [hi, hq]; rfl
          rw [if_neg (by simp [hit]), if_neg (by rw [hq]; simp),
            if_neg (by
              rw [hq]
              intro hh
              exact h3 (Or.inl (Option.some.inj hh).symm))]
          exact ⟨hd, hi, he, Or.inr hq⟩

theorem comp_seps_sound_aux : ∀ (s : PyStr) (st : ScanSt) (hs : SpecScan),
    (∀ c ∈ s, c ≠ aposChar) → Coupled st hs →
    ∀ i ∈ (s.foldl compStep st).seps,
      i ∈ st.seps ∨ ∃ k, k < s.length ∧ i = st.pos + k ∧ s.get? k = some ',' ∧
        ((s.take k).foldl specScanStep hs).depth = 0 ∧
        ((s.take k).foldl specScanStep hs).inStr = Option.none
  | [], st, hs => by
    intro _ _ i hi
    exact Or.inl hi
  | c :: rest, st, hs => by
    intro hnoq hcpl i hi
    rw [List.foldl_cons] at hi
    have hcpl2 := coupled_step st hs c (hnoq c (List.mem_cons_self c rest)) hcpl
    rcases comp_seps_sound_aux rest (compStep st c) (specScanStep hs c)
        (fun d hd => hnoq d (List.mem_cons_of_mem c hd)) hcpl2 i hi with
      hl | ⟨k, hk1, hk2, hk3, hk4, hk5⟩
    · rcases compStep_seps st c with hsep | ⟨hsep, hcomma, hesc, hstr, hdep⟩
      · rw [hsep] at hl
        exact Or.inl hl
      · rw [hsep, List.mem_append] at hl
        rcases hl with hl | hl
        · exact Or.inl hl
        · rw [List.mem_singleton] at hl
          refine Or.inr ⟨0, by simp, by omega, by rw [hcomma]; rfl, ?_, ?_⟩
          · rw [List.take_zero, List.foldl_nil, ← hcpl.1, hdep]
          · have h2 := hcpl.2.1
            rw [hstr] at h2
            cases hq : hs.inStr with
            | none => rw [List.take_zero, List.foldl_nil, hq]
            | some q =>
              rw [hq] at h2
              exact absurd h2.symm (by simp)
    · refine Or.inr ⟨k + 1, by simp; omega, ?_, hk3, ?_, ?_⟩
      · rw [hk2, compStep_pos]
        omega
      · rw [List.take_succ_cons, List.foldl_cons]
        exact hk4
      · rw [List.take_succ_cons, List.foldl_cons]
        exact hk5

/-- C9 amended: on apostrophe-free input the claim holds — every index the
`parse_nbt_components` splitter treats as a separator is a comma that the
reference scanner (quote-kind-aware, escape-aware) places at nesting depth 0
and outside any string literal; contrapositively a `,` inside a double-quoted
string or inside `{...}`/`[...]` nesting is never a separator.  The
restriction to one quote kind is forced by `comp_splitter_inside_string_cex`:
the code toggles a single flag on either quote character, so mixed quotes
defeat it. -/
theorem comp_splitter_top_level_only (s : PyStr)
    (hnoq : ∀ c ∈ s, c ≠ aposChar) :
    ∀ i ∈ (splitComponentsScan s).seps,
      s.get? i = some ',' ∧ (specScan (s.take i)).depth = 0 ∧
        (specScan (s.take i)).inStr = Option.none := by
  intro i hi
  have h0 : Coupled scanInit ⟨0, Option.none, false⟩ := ⟨rfl, rfl, rfl, Or.inl rfl⟩
  rcases comp_seps_sound_aux s scanInit ⟨0, Option.none, false⟩ hnoq h0 i hi with
    h | ⟨k, hk1, hk2, hk3, hk4, hk5⟩
  · exact absurd h (List.not_mem_nil i)
  · have hik : i = k := by simpa [scanInit] using hk2
    subst hik
    exact ⟨hk3, hk4, hk5⟩

/-- Closed instance of `comp_splitter_top_level_only` on `a={x:1},b=2`
(no apostrophes): the recorded separator 7 is a comma at depth 0 outside
strings. -/
theorem comp_splitter_top_level_only_witness :
    "a=\x7bx:1\x7d,b=2".data.get? 7 = some ',' ∧
    (specScan ("a=\x7bx:1\x7d,b=2".data.take 7)).depth = 0 ∧
    (specScan ("a=\x7bx:1\x7d,b=2".data.take 7)).inStr = Option.none :=
  comp_splitter_top_level_only "a=\x7bx:1\x7d,b=2".data (by decide) 7 (by decide)
